import Mathlib

/-!
# Verification of the syncbox synchronization core

A shallow embedding of the core of the `syncbox` repository:

* `src/checksum_tree.rs` — the `ChecksumTree` / `ChecksumElement` data model,
  `remove_at`, the serde serialization (`to_gzip` / `from_gzip`) and the
  `From<HashMap<String, String>>` conversion (`from_flat_map`);
* `src/reconciler.rs` — `Reconciler::reconcile` and `check_version`;
* `src/transport/mod.rs` — the default `Transport::read_last_checksum`;
* `src/main.rs` — the Put-execution / phase structure of `main`.

Rust `HashMap<String, _>` values are modelled as association lists
(`List (String × _)`); the `HashMap` key-uniqueness invariant is captured by
the `WFElem` / `WFTree` predicates where a proof needs it.  Paths
(`std::path::Path`) are modelled as their component lists (`List String`),
which is how both the reconciler and `remove_at` consume them.
-/

/-- Association-list lookup, mirroring `HashMap::get`. -/
def alGet {α : Type} : List (String × α) → String → Option α
  | [], _ => none
  | (k, v) :: rest, key => if k = key then some v else alGet rest key

/-- Association-list removal returning the removed value, mirroring
`HashMap::remove` (which on a `HashMap` removes *the* entry for the key). -/
def alRemove {α : Type} : List (String × α) → String → Option α × List (String × α)
  | [], _ => (none, [])
  | (k, v) :: rest, key =>
    if k = key then (some v, rest)
    else
      let r := alRemove rest key
      (r.1, (k, v) :: r.2)

/-- Association-list insert, mirroring `HashMap::insert` (replaces the value
when the key is present). -/
def alInsert {α : Type} : List (String × α) → String → α → List (String × α)
  | [], key, v => [(key, v)]
  | (k, w) :: rest, key, v =>
    if k = key then (k, v) :: rest else (k, w) :: alInsert rest key v

/-- `ChecksumElement` from `src/checksum_tree.rs`: a directory maps names to
child elements, a file holds its checksum string. -/
inductive ChecksumElement where
  | Directory (entries : List (String × ChecksumElement))
  | File (checksum : String)
deriving Inhabited

/-- `Default for ChecksumElement`: the empty directory. -/
def ChecksumElement.defaultElem : ChecksumElement := .Directory []

mutual

/-- Node count of an element, used as a termination measure. -/
def ChecksumElement.esize : ChecksumElement → Nat
  | .File _ => 1
  | .Directory d => 1 + ChecksumElement.lsize d

/-- Node count of a directory entry list. -/
def ChecksumElement.lsize : List (String × ChecksumElement) → Nat
  | [] => 0
  | (_, e) :: rest => ChecksumElement.esize e + ChecksumElement.lsize rest

end

/-- `CARGO_PKG_VERSION` of the crate (the value the tests of
`src/checksum_tree.rs` use). -/
def cargoPkgVersion : String := "0.3.0"

/-- `ChecksumTree` from `src/checksum_tree.rs`. -/
structure ChecksumTree where
  version : String
  root : Option ChecksumElement
deriving Inhabited

/-- `ChecksumTree::new` (= `Default for ChecksumTree`): current crate version
and an empty root directory. -/
def ChecksumTree.new : ChecksumTree :=
  { version := cargoPkgVersion, root := some ChecksumElement.defaultElem }

/-- Lookup of the element at a component path, descending through
directories. -/
def elemLookup : ChecksumElement → List String → Option ChecksumElement
  | e, [] => some e
  | .File _, _ :: _ => none
  | .Directory d, k :: ks =>
    match alGet d k with
    | none => none
    | some e => elemLookup e ks

/-- Lookup of the element at a component path from the tree root. -/
def treeLookup (t : ChecksumTree) (p : List String) : Option ChecksumElement :=
  match t.root with
  | none => none
  | some e => elemLookup e p

/-- The fingerprint stored at a path (`some` exactly for file entries). -/
def fpAt (t : ChecksumTree) (p : List String) : Option String :=
  match treeLookup t p with
  | some (.File c) => some c
  | _ => none

/-- Whether a directory node sits at a path. -/
def dirAt (t : ChecksumTree) (p : List String) : Bool :=
  match treeLookup t p with
  | some (.Directory _) => true
  | _ => false

/-- Interior of `ChecksumTree::remove_at`: walk the components from a
directory-entry list; at the last component remove the entry; if an
intermediate component does not lead to a directory, change nothing
(`// Path does not exist, nothing to remove`). -/
def removeAtDir (dir : List (String × ChecksumElement)) :
    List String → List (String × ChecksumElement)
  | [] => dir
  | [c] => (alRemove dir c).2
  | c :: c' :: rest =>
    match alGet dir c with
    | some (.Directory sub) =>
      alInsert dir c (.Directory (removeAtDir sub (c' :: rest)))
    | _ => dir

/-- `ChecksumTree::remove_at` (src/checksum_tree.rs:47-71): only acts when the
root is a directory. -/
def ChecksumTree.remove_at (t : ChecksumTree) (path : List String) : ChecksumTree :=
  match t.root with
  | some (.Directory rootDir) =>
    { t with root := some (.Directory (removeAtDir rootDir path)) }
  | _ => t

/-- Well-formedness of an element: at every directory, entry names are
unique — the invariant a Rust `HashMap` guarantees by construction. -/
inductive WFElem : ChecksumElement → Prop where
  | file (c : String) : WFElem (.File c)
  | dir (d : List (String × ChecksumElement))
      (hnd : (d.map Prod.fst).Nodup)
      (hmem : ∀ p ∈ d, WFElem p.2) : WFElem (.Directory d)

/-- Well-formedness of a tree: its root element (when present) is
well-formed. -/
def WFTree (t : ChecksumTree) : Prop :=
  ∀ e, t.root = some e → WFElem e

/-- A model of `serde_json` values, at the level needed by the snapshot
encoding (strings, objects, `null`).  Objects keep their fields as ordered
association lists. -/
inductive Json where
  | null
  | str (s : String)
  | obj (fields : List (String × Json))
deriving Inhabited

mutual

/-- serde serialization of a `ChecksumElement` (externally tagged enum): a
directory becomes `{"Directory": {...}}`, a file `{"File": "<checksum>"}`.
The `#[serde(alias = "d")]` / `#[serde(alias = "f")]` attributes affect only
deserialization, so the *full* variant names are emitted here. -/
def serializeElem : ChecksumElement → Json
  | .Directory d => .obj [("Directory", .obj (serializeEntries d))]
  | .File c => .obj [("File", .str c)]

/-- serde serialization of a directory's entries (a `HashMap` becomes a JSON
object). -/
def serializeEntries : List (String × ChecksumElement) → List (String × Json)
  | [] => []
  | (k, e) :: rest => (k, serializeElem e) :: serializeEntries rest

end

/-- serde serialization of a `ChecksumTree`: `{"version": ..., "root": ...}`;
`root: Option<_>` serializes `None` as `null`. -/
def serializeTree (t : ChecksumTree) : Json :=
  .obj [("version", .str t.version),
        ("root", match t.root with
                 | none => .null
                 | some e => serializeElem e)]

mutual

/-- serde deserialization of a `ChecksumElement`: an externally tagged enum
expects an object with a single key, which may be the variant name or its
declared alias (`"Directory"`/`"d"`, `"File"`/`"f"`). -/
def deserializeElem : Json → Except String ChecksumElement
  | .obj [(tag, payload)] =>
    if tag = "Directory" ∨ tag = "d" then
      match payload with
      | .obj fields =>
        match deserializeEntries fields with
        | .ok d => .ok (.Directory d)
        | .error e => .error e
      | _ => .error "expected a map"
    else if tag = "File" ∨ tag = "f" then
      match payload with
      | .str s => .ok (.File s)
      | _ => .error "expected a string"
    else .error "unknown variant"
  | _ => .error "expected an externally tagged enum"

/-- serde deserialization of directory entries. -/
def deserializeEntries :
    List (String × Json) → Except String (List (String × ChecksumElement))
  | [] => .ok []
  | (k, j) :: rest =>
    match deserializeElem j with
    | .error e => .error e
    | .ok el =>
      match deserializeEntries rest with
      | .error e => .error e
      | .ok tail => .ok ((k, el) :: tail)

end

/-- serde deserialization of a `ChecksumTree`: `version` carries
`#[serde(default)]` (missing ⇒ `""`), the `Option` field `root` defaults to
`None` when missing and accepts `null`; unknown fields are ignored
(serde_json's default behavior). -/
def deserializeTree (j : Json) : Except String ChecksumTree :=
  match j with
  | .obj fields =>
    match alGet fields "version" with
    | some (.str v) =>
      (match alGet fields "root" with
       | none => .ok { version := v, root := none }
       | some .null => .ok { version := v, root := none }
       | some jr =>
         match deserializeElem jr with
         | .ok e => .ok { version := v, root := some e }
         | .error e => .error e)
    | some _ => .error "invalid type for version"
    | none =>
      (match alGet fields "root" with
       | none => .ok { version := "", root := none }
       | some .null => .ok { version := "", root := none }
       | some jr =>
         match deserializeElem jr with
         | .ok e => .ok { version := "", root := some e }
         | .error e => .error e)
  | _ => .error "expected an object"

/-- The gzip layer of the snapshot encoding.  `flate2` is an external crate
whose contract is a lossless byte coding, so the compressed payload is
modelled as the JSON value it encodes. -/
structure GzipBytes where
  payload : Json

/-- `ChecksumTree::to_gzip` (src/checksum_tree.rs:73-77): serialize with
serde_json and compress. -/
def ChecksumTree.to_gzip (t : ChecksumTree) : GzipBytes :=
  ⟨serializeTree t⟩

/-- `ChecksumTree::from_gzip` (src/checksum_tree.rs:79-82): decompress and
deserialize with serde_json. -/
def ChecksumTree.from_gzip (b : GzipBytes) : Except String ChecksumTree :=
  deserializeTree b.payload

/-- Raw segments of a path string: split at every `/`. -/
def pathSegments : List Char → List Char → List String
  | [], cur => [String.mk cur.reverse]
  | c :: cs, cur =>
    if c = '/' then String.mk cur.reverse :: pathSegments cs []
    else pathSegments cs (c :: cur)

/-- Components of a relative path string, as `std::path::Path::iter` yields
them: split on `/`, drop empty segments, and drop `"."` segments except in
leading position. -/
def splitPath (s : String) : List String :=
  match (pathSegments s.toList []).filter (fun c => c ≠ "") with
  | [] => []
  | p :: ps => p :: ps.filter (fun c => c ≠ ".")

/-- One path insertion of the `From<HashMap<String, String>>` conversion
(src/checksum_tree.rs:91-148): walk the components detaching each matched
subtree (missing components become empty directories), replace the entry at
the final component by a `File` leaf, and splice the carried subtrees back.
`none` models the `unreachable!()` panics (a file entry met where a directory
must be descended into) and the stack underflow on an empty component list. -/
def insertPath : ChecksumElement → List String → String → Option ChecksumElement
  | .File _, _ :: _, _ => none
  | _, [], _ => none
  | .Directory d, [c], checksum =>
    some (.Directory (alInsert (alRemove d c).2 c (.File checksum)))
  | .Directory d, c :: c' :: rest, checksum =>
    let r := alRemove d c
    let sub := r.1.getD ChecksumElement.defaultElem
    match insertPath sub (c' :: rest) checksum with
    | none => none
    | some sub' => some (.Directory (alInsert r.2 c sub'))

/-- `impl From<HashMap<String, String>> for ChecksumTree`
(src/checksum_tree.rs:91-148): fold every `(path, checksum)` pair into an
initially empty root directory; the version is `CARGO_PKG_VERSION` via
`..Default::default()`.  The `HashMap` iteration order is modelled by the
list order. -/
def from_flat_map (m : List (String × String)) : Option ChecksumTree :=
  match m.foldl
      (fun acc kv => acc.bind (fun root => insertPath root (splitPath kv.1) kv.2))
      (some ChecksumElement.defaultElem) with
  | none => none
  | some root => some { version := cargoPkgVersion, root := some root }

/-- `Action` from `src/reconciler.rs`, with paths as component lists (a
`PathBuf` collected from components).  Named `SyncAction` here because
Mathlib already has a declaration called `Action`. -/
inductive SyncAction where
  | Mkdir (path : List String)
  | Put (path : List String)
  | Remove (path : List String)
deriving DecidableEq, Inhabited

/-- How `Reconciler::reconcile` can fail: the version gate error, or a Rust
`panic!`/`unreachable!`/`unwrap` abort. -/
inductive ReconcileError where
  | versionMismatch (message : String)
  | panicked
deriving DecidableEq, Inhabited

/-- `check_version` (src/reconciler.rs:113-121): plain string comparison of
the two version strings. -/
def check_version (prev next : String) : Except ReconcileError Unit :=
  if next < prev then
    .error (.versionMismatch
      ("Your version of syncbox seems outdated, please update to at least " ++ prev))
  else .ok ()

/-- The per-file descent of `Reconciler::reconcile`
(src/reconciler.rs:35-88), written as the recursion the explicit
`stack`/rebuild loops implement: descend along the directory components
`keys`, detaching each matched subtree (`HashMap::remove`); a missing
component becomes an empty directory placeholder and emits
`Mkdir(path so far)` unless that path has a single component
(`// ignore "." directories`); at the leaf, compare or create the file entry;
then splice the carried subtrees back (`dir.insert`).  `none` models the
`unreachable!()` panics (a non-directory met where a directory is needed). -/
def processFile (cur : ChecksumElement) (keys : List String)
    (pathSoFar : List String) (filename : String) (newChecksum : String)
    (fullDepth : List String) : Option (List SyncAction × ChecksumElement) :=
  match cur with
  | .File _ => none
  | .Directory dir =>
    match keys with
    | [] =>
      let r := alRemove dir filename
      match r.1 with
      | some (.File prevChecksum) =>
        some ((if prevChecksum = newChecksum then [] else [.Put fullDepth]),
              .Directory r.2)
      | some (.Directory _) => none
      | none => some ([.Put fullDepth], .Directory r.2)
    | k :: ks =>
      let path' := pathSoFar ++ [k]
      let r := alRemove dir k
      let mkdirActs : List SyncAction :=
        match r.1 with
        | some _ => []
        | none => if path'.length > 1 then [.Mkdir path'] else []
      let child := r.1.getD ChecksumElement.defaultElem
      match processFile child ks path' filename newChecksum fullDepth with
      | none => none
      | some (acts, child') =>
        some (mkdirActs ++ acts, .Directory (alInsert r.2 k child'))

/-- Total node count of a reconciliation queue, the termination measure of
the two worklist loops of `reconcile`. -/
def qsize (q : List (List String × ChecksumElement)) : Nat :=
  (q.map (fun kv => kv.2.esize)).sum

theorem lsize_eq_sum (d : List (String × ChecksumElement)) :
    ChecksumElement.lsize d = (d.map (fun kv => kv.2.esize)).sum := by
  induction d with
  | nil => simp [ChecksumElement.lsize]
  | cons hd tl ih => simp [ChecksumElement.lsize, ih]

theorem qsize_cons (p : List String) (e : ChecksumElement)
    (rest : List (List String × ChecksumElement)) :
    qsize ((p, e) :: rest) = e.esize + qsize rest := by
  simp [qsize]

theorem qsize_append (a b : List (List String × ChecksumElement)) :
    qsize (a ++ b) = qsize a + qsize b := by
  simp [qsize]

theorem qsize_reverse (a : List (List String × ChecksumElement)) :
    qsize a.reverse = qsize a := by
  simp [qsize, List.map_reverse, List.sum_reverse]

theorem qsize_children (d : List (String × ChecksumElement))
    (p : List String) :
    qsize (d.map (fun kv => (p ++ [kv.1], kv.2))) = ChecksumElement.lsize d := by
  rw [lsize_eq_sum]
  simp [qsize, List.map_map]
  rfl

/-- The deletion pass of `Reconciler::reconcile` (src/reconciler.rs:92-106):
exhaust the leftover previous tree with an explicit stack (the list head is
the stack top) and append `Remove(path)` for every remaining file leaf. -/
def removeLoop : List (List String × ChecksumElement) → List SyncAction → List SyncAction
  | [], actions => actions
  | (path, .Directory dir) :: rest, actions =>
    removeLoop ((dir.map (fun kv => (path ++ [kv.1], kv.2))).reverse ++ rest) actions
  | (path, .File _) :: rest, actions => removeLoop rest (actions ++ [.Remove path])
termination_by q _ => qsize q
decreasing_by
  · rw [qsize_append, qsize_reverse, qsize_children, qsize_cons]
    simp [ChecksumElement.esize]
  · rw [qsize_cons]
    simp [ChecksumElement.esize]

/-- The breadth-first worklist loop of `Reconciler::reconcile`
(src/reconciler.rs:23-90): pop the front; a directory enqueues its children
with extended path prefixes; a file runs the per-file descent against the
mutable previous tree. -/
def bfsLoop : List (List String × ChecksumElement) → ChecksumElement →
    List SyncAction → Except ReconcileError (List SyncAction)
  | [], prev, actions => .ok (removeLoop [([], prev)] actions)
  | (depth, .Directory dir) :: rest, prev, actions =>
    bfsLoop (rest ++ dir.map (fun kv => (depth ++ [kv.1], kv.2))) prev actions
  | (depth, .File newChecksum) :: rest, prev, actions =>
    match depth with
    | [] => .error .panicked
    | k :: ks =>
      match processFile prev (k :: ks).dropLast []
          ((k :: ks).getLast (List.cons_ne_nil k ks)) newChecksum (k :: ks) with
      | none => .error .panicked
      | some (acts, prev') => bfsLoop rest prev' (actions ++ acts)
termination_by q _ _ => qsize q
decreasing_by
  · rw [qsize_append, qsize_children, qsize_cons]
    simp [ChecksumElement.esize]
    omega
  · rw [qsize_cons]
    simp [ChecksumElement.esize]

/-- `Reconciler::reconcile` (src/reconciler.rs:15-109): version gate, then the
worklist diff of `next` against a destructively consumed copy of `prev`,
then the deletion pass.  `prev.get_root().take().unwrap_or_default()` and the
`unwrap` of `next`'s root are modelled faithfully. -/
def reconcile (prev next : ChecksumTree) : Except ReconcileError (List SyncAction) :=
  match check_version prev.version next.version with
  | .error e => .error e
  | .ok () =>
    let previous_checksum := prev.root.getD ChecksumElement.defaultElem
    match next.root with
    | none => .error .panicked
    | some root => bfsLoop [([], root)] previous_checksum []

theorem alRemove_fst {α : Type} (l : List (String × α)) (k : String) :
    (alRemove l k).1 = alGet l k := by
  induction l with
  | nil => rfl
  | cons hd tl ih =>
    obtain ⟨k0, v⟩ := hd
    by_cases hk : k0 = k
    · simp [alRemove, alGet, hk]
    · simp [alRemove, alGet, hk, ih]

theorem alGet_remove_ne {α : Type} (l : List (String × α)) (k k' : String)
    (h : k' ≠ k) : alGet (alRemove l k).2 k' = alGet l k' := by
  induction l with
  | nil => rfl
  | cons hd tl ih =>
    obtain ⟨k0, v⟩ := hd
    by_cases hk : k0 = k
    · subst hk
      have : ¬ (k0 = k') := fun e => h (e ▸ rfl)
      simp [alRemove, alGet, this]
    · by_cases hk' : k0 = k'
      · simp [alRemove, alGet, hk, hk', h]
      · simp [alRemove, alGet, hk, hk', ih]

theorem alGet_insert_self {α : Type} (l : List (String × α)) (k : String) (v : α) :
    alGet (alInsert l k v) k = some v := by
  induction l with
  | nil => simp [alInsert, alGet]
  | cons hd tl ih =>
    obtain ⟨k0, w⟩ := hd
    by_cases hk : k0 = k
    · simp [alInsert, alGet, hk]
    · simp [alInsert, alGet, hk, ih]

theorem alGet_insert_ne {α : Type} (l : List (String × α)) (k k' : String) (v : α)
    (h : k' ≠ k) : alGet (alInsert l k v) k' = alGet l k' := by
  have hkk : ¬ (k = k') := fun e => h e.symm
  induction l with
  | nil => simp [alInsert, alGet, hkk]
  | cons hd tl ih =>
    obtain ⟨k0, w⟩ := hd
    by_cases hk : k0 = k
    · subst hk
      simp [alInsert, alGet, hkk]
    · by_cases hk' : k0 = k'
      · simp [alInsert, alGet, hk, hk', h]
      · simp [alInsert, alGet, hk, hk', ih]

theorem alGet_eq_none_iff {α : Type} (l : List (String × α)) (k : String) :
    alGet l k = none ↔ k ∉ l.map Prod.fst := by
  induction l with
  | nil => simp [alGet]
  | cons hd tl ih =>
    obtain ⟨k0, v⟩ := hd
    by_cases hk : k0 = k
    · simp [alGet, hk]
    · have hne : ¬ (k = k0) := fun e => hk e.symm
      simp [alGet, hk, ih, hne]

theorem alGet_mem {α : Type} (l : List (String × α)) (k : String) (v : α)
    (h : alGet l k = some v) : (k, v) ∈ l := by
  induction l with
  | nil => simp [alGet] at h
  | cons hd tl ih =>
    obtain ⟨k0, w⟩ := hd
    by_cases hk : k0 = k
    · subst hk
      simp [alGet] at h
      simp [h]
    · simp [alGet, hk] at h
      exact List.mem_cons_of_mem _ (ih h)

theorem alGet_remove_self {α : Type} (l : List (String × α)) (k : String)
    (hnd : (l.map Prod.fst).Nodup) : alGet (alRemove l k).2 k = none := by
  induction l with
  | nil => rfl
  | cons hd tl ih =>
    obtain ⟨k0, v⟩ := hd
    simp only [List.map_cons, List.nodup_cons] at hnd
    by_cases hk : k0 = k
    · subst hk
      simp only [alRemove, if_pos rfl]
      rw [alGet_eq_none_iff]
      exact hnd.1
    · simp [alRemove, alGet, hk]
      exact ih hnd.2

theorem mem_alRemove {α : Type} (l : List (String × α)) (k : String) :
    ∀ p ∈ (alRemove l k).2, p ∈ l := by
  induction l with
  | nil => intro p hp; exact absurd hp (by simp [alRemove])
  | cons hd tl ih =>
    obtain ⟨k0, v⟩ := hd
    intro p hp
    by_cases hk : k0 = k
    · simp only [alRemove, if_pos hk] at hp
      exact List.mem_cons_of_mem _ hp
    · simp only [alRemove, if_neg hk] at hp
      rcases List.mem_cons.mp hp with h | h
      · exact h ▸ List.mem_cons_self _ _
      · exact List.mem_cons_of_mem _ (ih p h)

theorem mem_alInsert {α : Type} (l : List (String × α)) (k : String) (v : α) :
    ∀ p ∈ alInsert l k v, p ∈ l ∨ p = (k, v) := by
  induction l with
  | nil =>
    intro p hp
    simp only [alInsert, List.mem_singleton] at hp
    exact Or.inr hp
  | cons hd tl ih =>
    obtain ⟨k0, w⟩ := hd
    intro p hp
    by_cases hk : k0 = k
    · simp only [alInsert, if_pos hk] at hp
      rcases List.mem_cons.mp hp with h | h
      · exact Or.inr (h.trans (by rw [hk]))
      · exact Or.inl (List.mem_cons_of_mem _ h)
    · simp only [alInsert, if_neg hk] at hp
      rcases List.mem_cons.mp hp with h | h
      · exact Or.inl (h ▸ List.mem_cons_self _ _)
      · rcases ih p h with h' | h'
        · exact Or.inl (List.mem_cons_of_mem _ h')
        · exact Or.inr h'

theorem keys_alRemove_sublist {α : Type} (l : List (String × α)) (k : String) :
    ((alRemove l k).2.map Prod.fst).Sublist (l.map Prod.fst) := by
  induction l with
  | nil => simp [alRemove]
  | cons hd tl ih =>
    obtain ⟨k0, v⟩ := hd
    by_cases hk : k0 = k
    · simp only [alRemove, if_pos hk, List.map_cons]
      exact List.sublist_cons_self _ _
    · simp only [alRemove, if_neg hk, List.map_cons]
      exact ih.cons₂ _

theorem keys_alInsert_of_get {α : Type} (l : List (String × α)) (k : String)
    (v w : α) (h : alGet l k = some w) :
    (alInsert l k v).map Prod.fst = l.map Prod.fst := by
  induction l with
  | nil => simp [alGet] at h
  | cons hd tl ih =>
    obtain ⟨k0, w0⟩ := hd
    by_cases hk : k0 = k
    · simp [alInsert, hk]
    · simp only [alGet, if_neg hk] at h
      simp [alInsert, hk, ih h]

theorem keys_alInsert_of_none {α : Type} (l : List (String × α)) (k : String)
    (v : α) (h : alGet l k = none) :
    (alInsert l k v).map Prod.fst = l.map Prod.fst ++ [k] := by
  induction l with
  | nil => simp [alInsert]
  | cons hd tl ih =>
    obtain ⟨k0, w0⟩ := hd
    by_cases hk : k0 = k
    · simp only [alGet, if_pos hk] at h
      cases h
    · simp only [alGet, if_neg hk] at h
      simp [alInsert, hk, ih h]

theorem keys_alInsert_nodup {α : Type} (l : List (String × α)) (k : String)
    (v : α) (hnd : (l.map Prod.fst).Nodup) :
    ((alInsert l k v).map Prod.fst).Nodup := by
  cases h : alGet l k with
  | none =>
    rw [keys_alInsert_of_none l k v h]
    have hk : k ∉ l.map Prod.fst := (alGet_eq_none_iff l k).mp h
    simp [List.nodup_append, hnd, hk]
  | some w =>
    rw [keys_alInsert_of_get l k v w h]
    exact hnd

theorem alInsert_get_eq {α : Type} (l : List (String × α)) (k : String) (v : α)
    (h : alGet l k = some v) : alInsert l k v = l := by
  induction l with
  | nil => simp [alGet] at h
  | cons hd tl ih =>
    obtain ⟨k0, w⟩ := hd
    by_cases hk : k0 = k
    · subst hk
      have hwv : w = v := by simpa [alGet] using h
      subst hwv
      simp [alInsert]
    · simp only [alGet, if_neg hk] at h
      simp [alInsert, hk, ih h]

theorem WF_nodup {d : List (String × ChecksumElement)}
    (h : WFElem (.Directory d)) : (d.map Prod.fst).Nodup := by
  cases h with
  | dir _ hnd _ => exact hnd

theorem WF_alGet {d : List (String × ChecksumElement)} {k : String}
    {e : ChecksumElement} (h : WFElem (.Directory d)) (hg : alGet d k = some e) :
    WFElem e := by
  cases h with
  | dir _ _ hmem => exact hmem (k, e) (alGet_mem d k e hg)

theorem WF_alRemove {d : List (String × ChecksumElement)} (k : String)
    (h : WFElem (.Directory d)) : WFElem (.Directory (alRemove d k).2) := by
  cases h with
  | dir _ hnd hmem =>
    exact WFElem.dir _ ((keys_alRemove_sublist d k).nodup hnd)
      (fun p hp => hmem p (mem_alRemove d k p hp))

theorem WF_alInsert {d : List (String × ChecksumElement)} (k : String)
    {v : ChecksumElement} (h : WFElem (.Directory d)) (hv : WFElem v) :
    WFElem (.Directory (alInsert d k v)) := by
  cases h with
  | dir _ hnd hmem =>
    refine WFElem.dir _ (keys_alInsert_nodup d k v hnd) (fun p hp => ?_)
    rcases mem_alInsert d k v p hp with h' | h'
    · exact hmem p h'
    · rw [h']
      exact hv

/-- The navigation test of `remove_at`: every component except the last leads
to a directory entry. -/
def removeWalkOk (d : List (String × ChecksumElement)) : List String → Bool
  | [] => true
  | [_] => true
  | c :: c' :: rest =>
    match alGet d c with
    | some (.Directory sub) => removeWalkOk sub (c' :: rest)
    | _ => false

/-- Tree-level navigation test of `remove_at` (also requires the root to be a
directory, as `remove_at` does). -/
def walkParentOk (t : ChecksumTree) (p : List String) : Bool :=
  match t.root with
  | some (.Directory d) => removeWalkOk d p
  | _ => false

theorem removeAtDir_walkfail :
    ∀ (p : List String) (d : List (String × ChecksumElement)),
      removeWalkOk d p = false → removeAtDir d p = d
  | [], _, h => by simp [removeWalkOk] at h
  | [_], _, h => by simp [removeWalkOk] at h
  | c :: c' :: rest, d, h => by
    cases hg : alGet d c with
    | none => simp [removeAtDir, hg]
    | some e =>
      cases e with
      | File f => simp [removeAtDir, hg]
      | Directory sub =>
        simp only [removeWalkOk, hg] at h
        have := removeAtDir_walkfail (c' :: rest) sub h
        simp only [removeAtDir, hg, this]
        exact alInsert_get_eq d c _ hg

theorem removeAtDir_lookup_frame :
    ∀ (p : List String) (d : List (String × ChecksumElement)) (q : List String),
      ¬ p <+: q → ¬ q <+: p →
      elemLookup (.Directory (removeAtDir d p)) q = elemLookup (.Directory d) q
  | [], _, q, hpq, _ => absurd (List.nil_prefix) hpq
  | [c], d, q, hpq, hqp => by
    match q with
    | [] => exact absurd (List.nil_prefix) hqp
    | k :: qs =>
      by_cases hk : k = c
      · subst hk
        exact absurd (by simp [List.cons_prefix_cons, List.nil_prefix]) hpq
      · have : alGet (alRemove d c).2 k = alGet d k :=
          alGet_remove_ne d c k hk
        simp only [removeAtDir, elemLookup, this]
  | c :: c' :: rest, d, q, hpq, hqp => by
    cases hg : alGet d c with
    | none => simp [removeAtDir, hg]
    | some e =>
      cases e with
      | File f => simp [removeAtDir, hg]
      | Directory sub =>
        match q with
        | [] => exact absurd (List.nil_prefix) hqp
        | k :: qs =>
          by_cases hk : k = c
          · subst hk
            have hpq' : ¬ (c' :: rest) <+: qs := by
              intro h
              exact hpq (List.cons_prefix_cons.mpr ⟨rfl, h⟩)
            have hqp' : ¬ qs <+: (c' :: rest) := by
              intro h
              exact hqp (List.cons_prefix_cons.mpr ⟨rfl, h⟩)
            have ihs := removeAtDir_lookup_frame (c' :: rest) sub qs hpq' hqp'
            simp only [removeAtDir, hg, elemLookup, alGet_insert_self]
            simpa [elemLookup] using ihs
          · simp only [removeAtDir, hg, elemLookup,
              alGet_insert_ne d c k _ hk]

theorem removeAtDir_lookup_removed :
    ∀ (p : List String) (d : List (String × ChecksumElement)) (q : List String),
      WFElem (.Directory d) → p ≠ [] → p <+: q →
      elemLookup (.Directory (removeAtDir d p)) q = none
  | [], _, _, _, hne, _ => absurd rfl hne
  | [c], d, q, hwf, _, hpq => by
    obtain ⟨qs, rfl⟩ := hpq
    have : alGet (alRemove d c).2 c = none := alGet_remove_self d c (WF_nodup hwf)
    simp only [removeAtDir, List.singleton_append, elemLookup, this]
  | c :: c' :: rest, d, q, hwf, _, hpq => by
    obtain ⟨qtail, rfl⟩ := hpq
    cases hg : alGet d c with
    | none => simp [removeAtDir, hg, elemLookup]
    | some e =>
      cases e with
      | File f =>
        simp [removeAtDir, hg, elemLookup]
      | Directory sub =>
        have hwfs : WFElem (.Directory sub) := WF_alGet hwf hg
        have ihs := removeAtDir_lookup_removed (c' :: rest) sub
          ((c' :: rest) ++ qtail) hwfs (by simp) ⟨qtail, rfl⟩
        simp only [removeAtDir, hg, List.cons_append, elemLookup,
          alGet_insert_self]
        simpa [elemLookup] using ihs

theorem removeAtDir_lookup_ancestor :
    ∀ (p : List String) (d : List (String × ChecksumElement)) (q : List String),
      removeWalkOk d p = true → q <+: p → q ≠ p →
      (∃ s, elemLookup (.Directory d) q = some (.Directory s)) ∧
      (∃ s, elemLookup (.Directory (removeAtDir d p)) q = some (.Directory s))
  | [], _, q, _, hqp, hne => absurd (List.prefix_nil.mp hqp) hne
  | [c], d, q, _, hqp, hne => by
    have hq : q = [] := by
      rcases (List.prefix_cons_iff.mp hqp) with h | h
      · exact h
      · obtain ⟨t, rfl, ht⟩ := h
        obtain rfl := List.prefix_nil.mp ht
        exact absurd rfl hne
    subst hq
    exact ⟨⟨d, rfl⟩, ⟨removeAtDir d [c], rfl⟩⟩
  | c :: c' :: rest, d, q, hwalk, hqp, hne => by
    cases hg : alGet d c with
    | none => simp [removeWalkOk, hg] at hwalk
    | some e =>
      cases e with
      | File f => simp [removeWalkOk, hg] at hwalk
      | Directory sub =>
        simp only [removeWalkOk, hg] at hwalk
        match q with
        | [] => exact ⟨⟨d, rfl⟩, ⟨removeAtDir d (c :: c' :: rest), rfl⟩⟩
        | k :: qs =>
          obtain ⟨rfl, hqs⟩ := List.cons_prefix_cons.mp hqp
          have hne' : qs ≠ c' :: rest := fun h => hne (by rw [h])
          have ihs := removeAtDir_lookup_ancestor (c' :: rest) sub qs hwalk hqs hne'
          constructor
          · obtain ⟨s, hs⟩ := ihs.1
            exact ⟨s, by simp only [elemLookup, hg]; simpa [elemLookup] using hs⟩
          · obtain ⟨s, hs⟩ := ihs.2
            refine ⟨s, ?_⟩
            simp only [removeAtDir, hg, elemLookup, alGet_insert_self]
            simpa [elemLookup] using hs

theorem WF_removeAtDir :
    ∀ (p : List String) (d : List (String × ChecksumElement)),
      WFElem (.Directory d) → WFElem (.Directory (removeAtDir d p))
  | [], d, hwf => hwf
  | [c], d, hwf => WF_alRemove c hwf
  | c :: c' :: rest, d, hwf => by
    cases hg : alGet d c with
    | none => simpa [removeAtDir, hg] using hwf
    | some e =>
      cases e with
      | File f => simpa [removeAtDir, hg] using hwf
      | Directory sub =>
        have hwfs : WFElem (.Directory sub) := WF_alGet hwf hg
        have ihs := WF_removeAtDir (c' :: rest) sub hwfs
        simpa [removeAtDir, hg] using WF_alInsert c hwf ihs

theorem treeLookup_remove_at (t : ChecksumTree) (d : List (String × ChecksumElement))
    (ht : t.root = some (.Directory d)) (p q : List String) :
    treeLookup (t.remove_at p) q = elemLookup (.Directory (removeAtDir d p)) q := by
  simp [ChecksumTree.remove_at, ht, treeLookup]

/-- C6: `remove_at` removes exactly the subtree reached by walking the path:
a failed intermediate walk leaves the tree unchanged, every path not under
the removed one keeps its fingerprint and directory status, and every path at
or under the removed one is gone afterwards. -/
theorem remove_at_spec (t : ChecksumTree) (p : List String) (hwf : WFTree t) :
    (walkParentOk t p = false → t.remove_at p = t)
    ∧ (∀ q, ¬ p <+: q →
        fpAt (t.remove_at p) q = fpAt t q ∧ dirAt (t.remove_at p) q = dirAt t q)
    ∧ (p ≠ [] → ∀ q, p <+: q → treeLookup (t.remove_at p) q = none) := by
  have hq_ne : p ≠ [] → ∀ q : List String, p <+: q → q ≠ [] := by
    intro hp q hpq hq
    subst hq
    exact hp (List.prefix_nil.mp hpq)
  cases ht : t.root with
  | none =>
    have heq : t.remove_at p = t := by simp [ChecksumTree.remove_at, ht]
    refine ⟨fun _ => heq, fun q _ => by rw [heq]; exact ⟨rfl, rfl⟩, ?_⟩
    intro hp q hpq
    rw [heq]
    simp [treeLookup, ht]
  | some e =>
    cases e with
    | File f =>
      have heq : t.remove_at p = t := by simp [ChecksumTree.remove_at, ht]
      refine ⟨fun _ => heq, fun q _ => by rw [heq]; exact ⟨rfl, rfl⟩, ?_⟩
      intro hp q hpq
      rw [heq]
      obtain ⟨k, qs, rfl⟩ := List.exists_cons_of_ne_nil (hq_ne hp q hpq)
      simp [treeLookup, ht, elemLookup]
    | Directory d =>
      have hwfd : WFElem (.Directory d) := hwf _ ht
      refine ⟨?_, ?_, ?_⟩
      · intro hfail
        simp only [walkParentOk, ht] at hfail
        have hd : removeAtDir d p = d := removeAtDir_walkfail p d hfail
        cases t with
        | mk v r =>
          simp only [ChecksumTree.remove_at] at *
          simp only [ht]
          rw [hd, ← ht]
      · intro q hnpq
        by_cases hq : q <+: p
        · have hqp : q ≠ p := fun h => hnpq (h ▸ List.prefix_refl q)
          by_cases hwalk : removeWalkOk d p
          · obtain ⟨⟨s₁, hs₁⟩, ⟨s₂, hs₂⟩⟩ :=
              removeAtDir_lookup_ancestor p d q hwalk hq hqp
            have hT : treeLookup (t.remove_at p) q = some (.Directory s₂) :=
              (treeLookup_remove_at t d ht p q).trans hs₂
            have hT' : treeLookup t q = some (.Directory s₁) := by
              rw [treeLookup, ht]
              exact hs₁
            constructor
            · simp [fpAt, hT, hT']
            · simp [dirAt, hT, hT']
          · have hd : removeAtDir d p = d :=
              removeAtDir_walkfail p d (by simpa using hwalk)
            have heq : t.remove_at p = t := by
              cases t with
              | mk v r =>
                simp only [ChecksumTree.remove_at] at *
                simp only [ht]
                rw [hd, ← ht]
            rw [heq]
            exact ⟨rfl, rfl⟩
        · have hfr := removeAtDir_lookup_frame p d q hnpq hq
          have hT : treeLookup (t.remove_at p) q = treeLookup t q := by
            rw [treeLookup_remove_at t d ht p q, hfr, treeLookup, ht]
          constructor
          · simp [fpAt, hT]
          · simp [dirAt, hT]
      · intro hp q hpq
        rw [treeLookup_remove_at t d ht p q]
        exact removeAtDir_lookup_removed p d q hwfd hp hpq

/-- C3: when the previous snapshot's version sorts after the next tree's
version under plain string comparison, `reconcile` fails fast with the
version-mismatch error — no diffing happens and no actions are produced. -/
theorem reconcile_version_gate (prev next : ChecksumTree)
    (h : next.version < prev.version) :
    reconcile prev next = .error (.versionMismatch
      ("Your version of syncbox seems outdated, please update to at least "
        ++ prev.version)) := by
  simp [reconcile, check_version, h]

/-- Witness for C3 at concrete trees of differing contents. -/
theorem reconcile_version_gate_witness :
    reconcile
      { version := "0.2.0", root := some (.Directory [("x.txt", .File "h")]) }
      { version := "0.1.0", root := some ChecksumElement.defaultElem }
      = .error (.versionMismatch
          "Your version of syncbox seems outdated, please update to at least 0.2.0") :=
  reconcile_version_gate _ _ (by rw [String.lt_iff_toList_lt]; decide)

/-- Default `Transport::read_last_checksum` (src/transport/mod.rs:11-22):
`self.read(..).ok().map(serde_json::from_slice).transpose()?.unwrap_or_default()`.
A failed read becomes `None` and then the default tree; a successful read is
decoded, and only a decode failure is propagated as an error.  The bytes a
successful read returns are modelled by the JSON value they parse as (a
parse failure of the byte level is part of decode failure). -/
def read_last_checksum (readResult : Except String Json) :
    Except String ChecksumTree :=
  match readResult with
  | .error _ => .ok ChecksumTree.new
  | .ok bytes =>
    match deserializeTree bytes with
    | .ok t => .ok t
    | .error e => .error e

/-- C10: the default `read_last_checksum` turns any read failure into the
default (empty-rooted) tree; an error is returned exactly when the read
succeeds but decoding fails. -/
theorem read_last_checksum_spec :
    (∀ e, read_last_checksum (.error e) = .ok ChecksumTree.new)
    ∧ (∀ j t, deserializeTree j = .ok t → read_last_checksum (.ok j) = .ok t)
    ∧ (∀ j e, deserializeTree j = .error e → read_last_checksum (.ok j) = .error e)
    ∧ ChecksumTree.new.root = some (.Directory []) := by
  refine ⟨fun e => rfl, fun j t h => ?_, fun j e h => ?_, rfl⟩
  · simp [read_last_checksum, h]
  · simp [read_last_checksum, h]

/-- Witness for C10: a read failure yields the default tree, a read of a
non-decodable value yields an error, a read of a valid snapshot yields it. -/
theorem read_last_checksum_spec_witness :
    read_last_checksum (.error "connection refused") = .ok ChecksumTree.new
    ∧ read_last_checksum (.ok (serializeTree ChecksumTree.new)) = .ok ChecksumTree.new
    ∧ read_last_checksum (.ok (.str "garbage")) = .error "expected an object" :=
  ⟨read_last_checksum_spec.1 "connection refused",
   read_last_checksum_spec.2.1 _ _ rfl,
   read_last_checksum_spec.2.2.1 _ _ rfl⟩

theorem esize_lt_of_mem {d : List (String × ChecksumElement)}
    {p : String × ChecksumElement} (hp : p ∈ d) :
    p.2.esize < ChecksumElement.esize (.Directory d) := by
  induction d with
  | nil => cases hp
  | cons hd tl ih =>
    simp only [ChecksumElement.esize, ChecksumElement.lsize] at *
    rcases List.mem_cons.mp hp with h | h
    · subst h
      omega
    · have := ih h
      omega

theorem dse_entries (d : List (String × ChecksumElement))
    (H : ∀ p ∈ d, deserializeElem (serializeElem p.2) = .ok p.2) :
    deserializeEntries (serializeEntries d) = .ok d := by
  induction d with
  | nil => rfl
  | cons hd tl ih =>
    obtain ⟨k, e⟩ := hd
    have h₁ : deserializeElem (serializeElem e) = .ok e :=
      H (k, e) (List.mem_cons_self _ _)
    have h₂ := ih (fun p hp => H p (List.mem_cons_of_mem _ hp))
    simp [serializeEntries, deserializeEntries, h₁, h₂]

theorem dse : ∀ e : ChecksumElement, deserializeElem (serializeElem e) = .ok e
  | .File c => by simp [serializeElem, deserializeElem]
  | .Directory d => by
    have H : ∀ p ∈ d, deserializeElem (serializeElem p.2) = .ok p.2 :=
      fun p hp => dse p.2
    simp [serializeElem, deserializeElem, dse_entries d H]
termination_by e => e.esize
decreasing_by exact esize_lt_of_mem hp

theorem dse_entries_all (d : List (String × ChecksumElement)) :
    deserializeEntries (serializeEntries d) = .ok d :=
  dse_entries d (fun p _ => dse p.2)

theorem to_gzip_from_gzip (t : ChecksumTree) :
    ChecksumTree.from_gzip (ChecksumTree.to_gzip t) = .ok t := by
  obtain ⟨v, r⟩ := t
  cases r with
  | none => rfl
  | some e =>
    cases e with
    | Directory d =>
      simp [ChecksumTree.to_gzip, ChecksumTree.from_gzip, serializeTree,
        deserializeTree, serializeElem, alGet, dse_entries_all d, deserializeElem]
    | File c =>
      simp [ChecksumTree.to_gzip, ChecksumTree.from_gzip, serializeTree,
        deserializeTree, serializeElem, alGet, deserializeElem]

/-- C5: the versioned, compressed snapshot encoding round-trips exactly for
every tree built via `from_flat_map`: `from_gzip (to_gzip t) = Ok(t)`. -/
theorem from_flat_map_roundtrip (m : List (String × String)) (t : ChecksumTree)
    (_h : from_flat_map m = some t) :
    ChecksumTree.from_gzip (ChecksumTree.to_gzip t) = .ok t :=
  to_gzip_from_gzip t

/-- Witness for C5 at a concrete flat map. -/
theorem from_flat_map_roundtrip_witness :
    from_flat_map [("a/b.txt", "h1"), ("c.txt", "h2")]
      = some { version := cargoPkgVersion,
               root := some (.Directory
                 [("a", .Directory [("b.txt", .File "h1")]), ("c.txt", .File "h2")]) }
    ∧ ChecksumTree.from_gzip (ChecksumTree.to_gzip
        { version := cargoPkgVersion,
          root := some (.Directory
            [("a", .Directory [("b.txt", .File "h1")]), ("c.txt", .File "h2")]) })
      = .ok { version := cargoPkgVersion,
              root := some (.Directory
                [("a", .Directory [("b.txt", .File "h1")]), ("c.txt", .File "h2")]) } :=
  ⟨rfl, from_flat_map_roundtrip [("a/b.txt", "h1"), ("c.txt", "h2")] _ rfl⟩

/-- Counterexample to C8: the serialized snapshot does *not* use the
single-character discriminants `"d"`/`"f"`; it uses the full variant names
(`#[serde(alias = ...)]` affects deserialization only, as the repository's
own `remove_at` test asserts). -/
theorem serialization_discriminant_counterexample :
    (ChecksumTree.to_gzip
        { version := "0.3.0", root := some (.Directory [("x", .File "h")]) }).payload
      ≠ Json.obj [("version", .str "0.3.0"),
                  ("root", .obj [("d", .obj [("x", .obj [("f", .str "h")])])])]
    ∧ (ChecksumTree.to_gzip
        { version := "0.3.0", root := some (.Directory [("x", .File "h")]) }).payload
      = Json.obj [("version", .str "0.3.0"),
                  ("root", .obj [("Directory", .obj [("x", .obj [("File", .str "h")])])])] := by
  refine ⟨?_, rfl⟩
  intro h
  simp [ChecksumTree.to_gzip, serializeTree, serializeElem, serializeEntries] at h

/-- C8 (amended): serialization keys each Directory node by the full variant
name `"Directory"` and each File node by `"File"`; the single-character
discriminants `"d"`/`"f"` are accepted as aliases when deserializing. -/
theorem serialization_discriminants (d : List (String × ChecksumElement)) (c : String) :
    serializeElem (.Directory d) = .obj [("Directory", .obj (serializeEntries d))]
    ∧ serializeElem (.File c) = .obj [("File", .str c)]
    ∧ deserializeElem (.obj [("f", .str c)]) = .ok (.File c)
    ∧ deserializeElem (.obj [("d", .obj (serializeEntries d))]) = .ok (.Directory d) := by
  refine ⟨rfl, rfl, by simp [deserializeElem], ?_⟩
  simp [deserializeElem, dse_entries_all d]

/-- Counterexample to C1: with previous empty and next containing exactly the
file `a/b.txt` (components `["a", "b.txt"]`, the tree `from_flat_map` builds
for the path `"a/b.txt"`), `reconcile` does *not* return
`[Mkdir("a"), Put("a/b.txt")]`: the top-level component never receives a
`Mkdir` (the `path.len() > 1` guard of src/reconciler.rs:49). -/
theorem reconcile_scenario1_counterexample :
    from_flat_map [("a/b.txt", "h1")]
      = some { version := cargoPkgVersion,
               root := some (.Directory [("a", .Directory [("b.txt", .File "h1")])]) }
    ∧ reconcile ChecksumTree.new
        { version := cargoPkgVersion,
          root := some (.Directory [("a", .Directory [("b.txt", .File "h1")])]) }
      ≠ .ok [SyncAction.Mkdir ["a"], SyncAction.Put ["a", "b.txt"]] := by
  refine ⟨rfl, ?_⟩
  have hc : reconcile ChecksumTree.new
      { version := cargoPkgVersion,
        root := some (.Directory [("a", .Directory [("b.txt", .File "h1")])]) }
      = .ok [SyncAction.Put ["a", "b.txt"]] := by
    simp [reconcile, check_version, ChecksumTree.new, cargoPkgVersion,
      ChecksumElement.defaultElem, bfsLoop, processFile, removeLoop, alRemove, alInsert]
  rw [hc]
  simp

/-- C1 (amended): for next containing exactly `a/b.txt` the action list is
exactly `[Put("a/b.txt")]` — the top-level directory gets no `Mkdir`; the
spec's intended `Mkdir`-then-`Put` pair appears for the `"./"`-prefixed form
`./a/b.txt` that the directory walker produces: the actions are exactly
`[Mkdir("./a"), Put("./a/b.txt")]`, in that order. -/
theorem reconcile_scenario1_amended :
    reconcile ChecksumTree.new
      { version := cargoPkgVersion,
        root := some (.Directory [("a", .Directory [("b.txt", .File "h1")])]) }
      = .ok [SyncAction.Put ["a", "b.txt"]]
    ∧ from_flat_map [("./a/b.txt", "h1")]
      = some { version := cargoPkgVersion,
               root := some (.Directory
                 [(".", .Directory [("a", .Directory [("b.txt", .File "h1")])])]) }
    ∧ reconcile ChecksumTree.new
        { version := cargoPkgVersion,
          root := some (.Directory
            [(".", .Directory [("a", .Directory [("b.txt", .File "h1")])])]) }
      = .ok [SyncAction.Mkdir [".", "a"], SyncAction.Put [".", "a", "b.txt"]] := by
  refine ⟨?_, rfl, ?_⟩
  · simp [reconcile, check_version, ChecksumTree.new, cargoPkgVersion,
      ChecksumElement.defaultElem, bfsLoop, processFile, removeLoop, alRemove, alInsert]
  · simp [reconcile, check_version, ChecksumTree.new, cargoPkgVersion,
      ChecksumElement.defaultElem, bfsLoop, processFile, removeLoop, alRemove, alInsert]

mutual

/-- Executable well-formedness check (unique names at every directory). -/
def ChecksumElement.wfb : ChecksumElement → Bool
  | .File _ => true
  | .Directory d => decide ((d.map Prod.fst).Nodup) && ChecksumElement.wfbList d

/-- Executable well-formedness check for entry lists. -/
def ChecksumElement.wfbList : List (String × ChecksumElement) → Bool
  | [] => true
  | (_, e) :: rest => e.wfb && ChecksumElement.wfbList rest

end

theorem wfbList_mem {d : List (String × ChecksumElement)}
    (h : ChecksumElement.wfbList d = true) {p : String × ChecksumElement}
    (hp : p ∈ d) : p.2.wfb = true := by
  induction d with
  | nil => cases hp
  | cons hd tl ih =>
    obtain ⟨k, e⟩ := hd
    simp only [ChecksumElement.wfbList, Bool.and_eq_true] at h
    rcases List.mem_cons.mp hp with h' | h'
    · rw [h']
      exact h.1
    · exact ih h.2 h'

theorem wfb_sound : ∀ e : ChecksumElement, e.wfb = true → WFElem e
  | .File c => fun _ => WFElem.file c
  | .Directory d => by
    intro h
    simp only [ChecksumElement.wfb, Bool.and_eq_true, decide_eq_true_eq] at h
    exact WFElem.dir d h.1 (fun p hp => wfb_sound p.2 (wfbList_mem h.2 hp))
termination_by e => e.esize
decreasing_by exact esize_lt_of_mem hp

theorem WFTree_mk_of_wfb (v : String) (e : ChecksumElement)
    (h : e.wfb = true) : WFTree { version := v, root := some e } := by
  intro e' he'
  simp only [Option.some.injEq] at he'
  exact he' ▸ wfb_sound e h

/-- Witness for C6: removing `dirrr/b.txt` from a two-file directory deletes
exactly that entry and keeps the sibling's fingerprint. -/
theorem remove_at_spec_witness :
    treeLookup
        (ChecksumTree.remove_at
          { version := "0.3.0",
            root := some (.Directory [("dirrr", .Directory
              [("a.txt", .File "h1"), ("b.txt", .File "h2")])]) }
          ["dirrr", "b.txt"])
        ["dirrr", "b.txt"] = none
    ∧ fpAt
        (ChecksumTree.remove_at
          { version := "0.3.0",
            root := some (.Directory [("dirrr", .Directory
              [("a.txt", .File "h1"), ("b.txt", .File "h2")])]) }
          ["dirrr", "b.txt"])
        ["dirrr", "a.txt"] = some "h1" := by
  have hwf : WFTree
      { version := "0.3.0",
        root := some (.Directory [("dirrr", .Directory
          [("a.txt", .File "h1"), ("b.txt", .File "h2")])]) } :=
    WFTree_mk_of_wfb _ _ (by decide)
  have h := remove_at_spec _ ["dirrr", "b.txt"] hwf
  refine ⟨h.2.2 (by decide) _ (List.prefix_refl _), ?_⟩
  have hfr := (h.2.1 ["dirrr", "a.txt"] (by decide)).1
  rw [hfr]
  rfl

theorem elemLookup_append (p : List String) :
    ∀ (e : ChecksumElement) (r : List String),
      elemLookup e (p ++ r)
        = match elemLookup e p with
          | some e' => elemLookup e' r
          | none => none := by
  induction p with
  | nil => intro e r; simp [elemLookup]
  | cons c cs ih =>
    intro e r
    cases e with
    | File f => simp [elemLookup]
    | Directory d =>
      simp only [List.cons_append, elemLookup]
      cases alGet d c with
      | none => simp
      | some e' => exact ih e' r

theorem treeLookup_file_no_descend {t : ChecksumTree} {p q : List String}
    {c : String} (hf : treeLookup t p = some (.File c)) (hpq : p <+: q)
    (hne : p ≠ q) : treeLookup t q = none := by
  obtain ⟨r, rfl⟩ := hpq
  have hr : r ≠ [] := fun h => hne (by simp [h])
  obtain ⟨k, ks, rfl⟩ := List.exists_cons_of_ne_nil hr
  cases ht : t.root with
  | none => simp [treeLookup, ht]
  | some e =>
    simp only [treeLookup, ht] at hf ⊢
    rw [elemLookup_append, hf]
    simp [elemLookup]

theorem file_paths_incomparable {t : ChecksumTree} {p q : List String}
    {c c' : String} (hp : treeLookup t p = some (.File c))
    (hq : treeLookup t q = some (.File c')) (hne : p ≠ q) : ¬ p <+: q := by
  intro hpre
  rw [treeLookup_file_no_descend hp hpre hne] at hq
  cases hq

theorem remove_at_frame (t : ChecksumTree) (p q : List String)
    (h1 : ¬ p <+: q) (h2 : ¬ q <+: p) :
    treeLookup (t.remove_at p) q = treeLookup t q := by
  cases ht : t.root with
  | none => simp [ChecksumTree.remove_at, ht]
  | some e =>
    cases e with
    | File f => simp [ChecksumTree.remove_at, ht]
    | Directory d =>
      rw [treeLookup_remove_at t d ht p q, removeAtDir_lookup_frame p d q h1 h2,
        treeLookup, ht]

theorem remove_at_removed (t : ChecksumTree) (p q : List String)
    (hwf : WFTree t) (hp : p ≠ []) (hpq : p <+: q) :
    treeLookup (t.remove_at p) q = none := by
  have hq : q ≠ [] := by
    intro h
    subst h
    exact hp (List.prefix_nil.mp hpq)
  cases ht : t.root with
  | none => simp [ChecksumTree.remove_at, ht, treeLookup]
  | some e =>
    cases e with
    | File f =>
      obtain ⟨k, ks, rfl⟩ := List.exists_cons_of_ne_nil hq
      simp [ChecksumTree.remove_at, ht, treeLookup, elemLookup]
    | Directory d =>
      rw [treeLookup_remove_at t d ht p q]
      exact removeAtDir_lookup_removed p d q (hwf _ ht) hp hpq

theorem WFTree_remove_at (t : ChecksumTree) (p : List String) (hwf : WFTree t) :
    WFTree (t.remove_at p) := by
  cases ht : t.root with
  | none => simpa [ChecksumTree.remove_at, ht] using hwf
  | some e =>
    cases e with
    | File f => simpa [ChecksumTree.remove_at, ht] using hwf
    | Directory d =>
      intro e' he'
      simp only [ChecksumTree.remove_at, ht, Option.some.injEq] at he'
      exact he' ▸ WF_removeAtDir p d (hwf _ ht)

theorem remove_at_root_dir {t : ChecksumTree} {d : List (String × ChecksumElement)}
    (ht : t.root = some (.Directory d)) (p : List String) :
    ∃ d', (t.remove_at p).root = some (.Directory d') := by
  simp [ChecksumTree.remove_at, ht]

/-- Shared state of the Put phase of `main` (src/main.rs:326-478): the working
tree behind its mutex, the global error flag, and the finished-path set.  The
mutex discipline serializes the per-task state updates, so the concurrent
phase is modelled as a fold over the put actions in completion order, each
action carrying its transfer outcome. -/
structure PutState where
  tree : ChecksumTree
  hasError : Bool
  finished : List (List String)

/-- Outcome handling of one Put task (src/main.rs:405-468): on success the
path joins the finished set; on failure the path is retracted from the shared
working tree and the global error flag is set (there is no early return and
no retry). -/
def execPut (σ : PutState) (p : List String) (ok : Bool) : PutState :=
  if ok then { σ with finished := p :: σ.finished }
  else { σ with tree := σ.tree.remove_at p, hasError := true }

/-- The whole Put phase. -/
def execPuts (σ : PutState) (acts : List (List String × Bool)) : PutState :=
  acts.foldl (fun σ a => execPut σ a.1 a.2) σ

theorem execPuts_cons (σ : PutState) (p : List String) (ok : Bool)
    (rest : List (List String × Bool)) :
    execPuts σ ((p, ok) :: rest) = execPuts (execPut σ p ok) rest := rfl

theorem execPuts_tree_frame :
    ∀ (acts : List (List String × Bool)) (σ : PutState) (q : List String),
      (∀ a ∈ acts, ¬ a.1 <+: q ∧ ¬ q <+: a.1) →
      treeLookup (execPuts σ acts).tree q = treeLookup σ.tree q
  | [], _, _, _ => rfl
  | (p, ok) :: rest, σ, q, h => by
    have hrest := execPuts_tree_frame rest (execPut σ p ok) q
      (fun a ha => h a (List.mem_cons_of_mem _ ha))
    have hhead := h (p, ok) (List.mem_cons_self _ _)
    cases ok with
    | true =>
      rw [execPuts_cons, hrest]
      simp [execPut]
    | false =>
      rw [execPuts_cons, hrest]
      have hstep : execPut σ p false
          = { σ with tree := σ.tree.remove_at p, hasError := true } := by
        simp [execPut]
      rw [hstep]
      exact remove_at_frame σ.tree p q hhead.1 hhead.2

theorem execPuts_error :
    ∀ (acts : List (List String × Bool)) (σ : PutState),
      (execPuts σ acts).hasError = (σ.hasError || acts.any (fun a => !a.2))
  | [], σ => by simp [execPuts]
  | (p, ok) :: rest, σ => by
    have := execPuts_error rest (execPut σ p ok)
    cases ok with
    | true =>
      rw [execPuts_cons, this]
      simp [execPut]
    | false =>
      rw [execPuts_cons, this]
      simp [execPut]

theorem execPuts_spec :
    ∀ (acts : List (List String × Bool)) (σ : PutState),
      WFTree σ.tree →
      (∃ d, σ.tree.root = some (.Directory d)) →
      (∀ a ∈ acts, ∃ c, treeLookup σ.tree a.1 = some (.File c)) →
      (acts.map Prod.fst).Nodup →
      (∀ a ∈ acts, a.2 = false →
          treeLookup (execPuts σ acts).tree a.1 = none
          ∧ (execPuts σ acts).hasError = true)
      ∧ (∀ a ∈ acts, a.2 = true →
          treeLookup (execPuts σ acts).tree a.1 = treeLookup σ.tree a.1)
  | [], σ, _, _, _, _ =>
    ⟨fun a ha => absurd ha (List.not_mem_nil a),
     fun a ha _ => absurd ha (List.not_mem_nil a)⟩
  | (p, ok) :: rest, σ, hwf, hroot, hfiles, hnd => by
    obtain ⟨d, hd⟩ := hroot
    obtain ⟨cp, hcp⟩ := hfiles (p, ok) (List.mem_cons_self _ _)
    rw [List.map_cons] at hnd
    have hnodup := List.nodup_cons.mp hnd
    have hincomp : ∀ a ∈ rest, ¬ a.1 <+: p ∧ ¬ p <+: a.1 := by
      intro a ha
      obtain ⟨ca, hca⟩ := hfiles a (List.mem_cons_of_mem _ ha)
      have hne : a.1 ≠ p := by
        intro h
        have hm : a.1 ∈ rest.map Prod.fst := List.mem_map_of_mem Prod.fst ha
        rw [h] at hm
        exact hnodup.1 hm
      exact ⟨file_paths_incomparable hca hcp hne,
        file_paths_incomparable hcp hca (fun h => hne h.symm)⟩
    have hpne : p ≠ [] := by
      intro h
      subst h
      simp [treeLookup, hd, elemLookup] at hcp
    cases ok with
    | true =>
      have hσ' : execPut σ p true = { σ with finished := p :: σ.finished } := by
        simp [execPut]
      have ih := execPuts_spec rest { σ with finished := p :: σ.finished }
        hwf ⟨d, hd⟩ (fun a ha => hfiles a (List.mem_cons_of_mem _ ha)) hnodup.2
      constructor
      · intro a ha hfalse
        rcases List.mem_cons.mp ha with h | h
        · rw [h] at hfalse
          cases hfalse
        · rw [execPuts_cons, hσ']
          exact ih.1 a h hfalse
      · intro a ha htrue
        rcases List.mem_cons.mp ha with h | h
        · subst h
          rw [execPuts_cons, hσ']
          exact execPuts_tree_frame rest _ p hincomp
        · rw [execPuts_cons, hσ']
          exact ih.2 a h htrue
    | false =>
      have hσ' : execPut σ p false
          = { σ with tree := σ.tree.remove_at p, hasError := true } := by
        simp [execPut]
      have hwf' : WFTree (σ.tree.remove_at p) := WFTree_remove_at _ p hwf
      have hfiles' : ∀ a ∈ rest, ∃ c,
          treeLookup (σ.tree.remove_at p) a.1 = some (.File c) := by
        intro a ha
        obtain ⟨ca, hca⟩ := hfiles a (List.mem_cons_of_mem _ ha)
        have hinc := hincomp a ha
        exact ⟨ca, by rw [remove_at_frame σ.tree p a.1 hinc.2 hinc.1]; exact hca⟩
      have ih := execPuts_spec rest
        { σ with tree := σ.tree.remove_at p, hasError := true }
        hwf' (remove_at_root_dir hd p) hfiles' hnodup.2
      constructor
      · intro a ha hfalse
        rcases List.mem_cons.mp ha with h | h
        · subst h
          constructor
          · rw [execPuts_cons, hσ']
            rw [execPuts_tree_frame rest _ p hincomp]
            exact remove_at_removed σ.tree p p hwf hpne (List.prefix_refl p)
          · rw [execPuts_cons, hσ']
            rw [execPuts_error]
            simp
        · rw [execPuts_cons, hσ']
          exact ih.1 a h hfalse
      · intro a ha htrue
        rcases List.mem_cons.mp ha with h | h
        · rw [h] at htrue
          cases htrue
        · have hinc := hincomp a h
          have hih := ih.2 a h htrue
          rw [execPuts_cons, hσ', hih]
          exact remove_at_frame σ.tree p a.1 hinc.2 hinc.1

/-- C7: starting the Put phase on the working tree `next` with a clean error
flag, every failed `Put(path)` leaves `path` absent from the final working
tree (the one persisted as the snapshot, src/main.rs:544-547) and the global
error flag set, while every path whose Put succeeded still holds exactly its
original entry.  The hypotheses state what `main` guarantees: the working
tree is the well-formed `next` tree (directory root) and the put actions are
distinct file paths of it. -/
theorem put_failure_retraction (t : ChecksumTree) (acts : List (List String × Bool))
    (hwf : WFTree t) (hroot : ∃ d, t.root = some (.Directory d))
    (hfiles : ∀ a ∈ acts, ∃ c, treeLookup t a.1 = some (.File c))
    (hnd : (acts.map Prod.fst).Nodup) :
    (∀ a ∈ acts, a.2 = false →
        treeLookup (execPuts ⟨t, false, []⟩ acts).tree a.1 = none
        ∧ (execPuts ⟨t, false, []⟩ acts).hasError = true)
    ∧ (∀ a ∈ acts, a.2 = true →
        treeLookup (execPuts ⟨t, false, []⟩ acts).tree a.1 = treeLookup t a.1) :=
  execPuts_spec acts ⟨t, false, []⟩ hwf hroot hfiles hnd

/-- Witness for C7: one failing and one succeeding Put on a two-file tree. -/
theorem put_failure_retraction_witness :
    treeLookup (execPuts
        ⟨{ version := "0.3.0",
           root := some (.Directory [("x.txt", .File "h1"), ("y.txt", .File "h2")]) },
         false, []⟩
        [(["x.txt"], false), (["y.txt"], true)]).tree ["x.txt"] = none
    ∧ (execPuts
        ⟨{ version := "0.3.0",
           root := some (.Directory [("x.txt", .File "h1"), ("y.txt", .File "h2")]) },
         false, []⟩
        [(["x.txt"], false), (["y.txt"], true)]).hasError = true
    ∧ treeLookup (execPuts
        ⟨{ version := "0.3.0",
           root := some (.Directory [("x.txt", .File "h1"), ("y.txt", .File "h2")]) },
         false, []⟩
        [(["x.txt"], false), (["y.txt"], true)]).tree ["y.txt"] = some (.File "h2") := by
  have h := put_failure_retraction
    { version := "0.3.0",
      root := some (.Directory [("x.txt", .File "h1"), ("y.txt", .File "h2")]) }
    [(["x.txt"], false), (["y.txt"], true)]
    (WFTree_mk_of_wfb _ _ (by decide))
    ⟨_, rfl⟩
    (by
      intro a ha
      rcases List.mem_cons.mp ha with h | h
      · exact ⟨"h1", by subst h; rfl⟩
      · rw [List.mem_singleton] at h
        exact ⟨"h2", by subst h; rfl⟩)
    (by decide)
  have h1 := h.1 (["x.txt"], false) (List.mem_cons_self _ _) rfl
  have h2 := h.2 (["y.txt"], true)
    (List.mem_cons_of_mem _ (List.mem_cons_self _ _)) rfl
  exact ⟨h1.1, h1.2, h2⟩

/-- Observable events of one run of `main` (src/main.rs:286-561). -/
inductive RunEvent where
  | mkdirAttempt (path : List String) (ok : Bool)
  | putAttempt (path : List String) (ok : Bool)
  | removeAttempt (path : List String) (ok : Bool)
  | uploadChecksum
  | closeTransport
  | panicError
  | doneOk
deriving DecidableEq

/-- One phase of `main`: every action is attempted in turn; a failure only
sets the error flag (the `Err` match arms at src/main.rs:309-318, 457-467 and
522-525 contain no early return), so the phase always drains its whole list.
The bounded-concurrency phases are serialized here in completion order, which
the shared-flag discipline (`has_error.store`) makes sound for the properties
stated below. -/
def runList (f : List String → Bool → RunEvent) :
    List (List String × Bool) → Bool → List RunEvent × Bool
  | [], flag => ([], flag)
  | (p, ok) :: rest, flag =>
    let flag' := if ok then flag else true
    let r := runList f rest flag'
    (f p ok :: r.1, r.2)

/-- The phase structure of `main` (src/main.rs:286-561): mkdir phase, put
phase, remove phase (skippable by `--skip-removal`), then finalization
(upload the final checksum, close the transport), and only then the
`panic!("There were errors")` check of the global error flag. -/
def runSync (mkdirs puts removes : List (List String × Bool))
    (skipRemoval : Bool) : List RunEvent × Bool :=
  let r1 := runList .mkdirAttempt mkdirs false
  let r2 := runList .putAttempt puts r1.2
  let r3 :=
    if skipRemoval then (([] : List RunEvent), r2.2)
    else runList .removeAttempt removes r2.2
  (r1.1 ++ r2.1 ++ r3.1 ++ [.uploadChecksum, .closeTransport]
     ++ (if r3.2 then [.panicError] else [.doneOk]), r3.2)

/-- Whether an event is a per-action attempt. -/
def RunEvent.isAttempt : RunEvent → Bool
  | .mkdirAttempt _ _ => true
  | .putAttempt _ _ => true
  | .removeAttempt _ _ => true
  | _ => false

theorem runList_eq (f : List String → Bool → RunEvent) :
    ∀ (acts : List (List String × Bool)) (flag : Bool),
      runList f acts flag
        = (acts.map (fun a => f a.1 a.2), flag || acts.any (fun a => !a.2))
  | [], flag => by simp [runList]
  | (p, ok) :: rest, flag => by
    cases ok with
    | true => simp [runList, runList_eq f rest flag]
    | false => simp [runList, runList_eq f rest true]

/-- C9: a per-action failure in any phase never aborts the run or skips
sibling actions — every action of every executed phase has its attempt in
the trace, the trace always ends with finalization (checksum upload, then
transport close) followed by exactly the outcome report, no failure signal
appears before finalization, and the reported flag is set iff some attempted
action failed. -/
theorem run_no_abort (mkdirs puts removes : List (List String × Bool))
    (skipRemoval : Bool) :
    (∀ a ∈ mkdirs,
        RunEvent.mkdirAttempt a.1 a.2 ∈ (runSync mkdirs puts removes skipRemoval).1)
    ∧ (∀ a ∈ puts,
        RunEvent.putAttempt a.1 a.2 ∈ (runSync mkdirs puts removes skipRemoval).1)
    ∧ (skipRemoval = false → ∀ a ∈ removes,
        RunEvent.removeAttempt a.1 a.2 ∈ (runSync mkdirs puts removes skipRemoval).1)
    ∧ (∃ pre, (runSync mkdirs puts removes skipRemoval).1
          = pre ++ [RunEvent.uploadChecksum, RunEvent.closeTransport]
            ++ (if (runSync mkdirs puts removes skipRemoval).2
                then [RunEvent.panicError] else [RunEvent.doneOk])
        ∧ ∀ e ∈ pre, e.isAttempt = true)
    ∧ ((runSync mkdirs puts removes skipRemoval).2
        = (mkdirs.any (fun a => !a.2) || puts.any (fun a => !a.2)
            || (!skipRemoval && removes.any (fun a => !a.2)))) := by
  have hm1 : ∀ a ∈ mkdirs, RunEvent.mkdirAttempt a.1 a.2
      ∈ (runList RunEvent.mkdirAttempt mkdirs false).1 := by
    intro a ha
    rw [runList_eq]
    exact List.mem_map_of_mem _ ha
  have hm2 : ∀ f2, ∀ a ∈ puts, RunEvent.putAttempt a.1 a.2
      ∈ (runList RunEvent.putAttempt puts f2).1 := by
    intro f2 a ha
    rw [runList_eq]
    exact List.mem_map_of_mem _ ha
  have hm3 : ∀ f3, ∀ a ∈ removes, RunEvent.removeAttempt a.1 a.2
      ∈ (runList RunEvent.removeAttempt removes f3).1 := by
    intro f3 a ha
    rw [runList_eq]
    exact List.mem_map_of_mem _ ha
  cases skipRemoval with
  | false =>
    refine ⟨?_, ?_, ?_, ?_, ?_⟩
    · intro a ha
      exact List.mem_append_left _ (List.mem_append_left _
        (List.mem_append_left _ (List.mem_append_left _ (hm1 a ha))))
    · intro a ha
      exact List.mem_append_left _ (List.mem_append_left _
        (List.mem_append_left _ (List.mem_append_right _ (hm2 _ a ha))))
    · intro _ a ha
      exact List.mem_append_left _ (List.mem_append_left _
        (List.mem_append_right _ (hm3 _ a ha)))
    · refine ⟨(mkdirs.map fun a => RunEvent.mkdirAttempt a.1 a.2)
        ++ (puts.map fun a => RunEvent.putAttempt a.1 a.2)
        ++ (removes.map fun a => RunEvent.removeAttempt a.1 a.2), ?_, ?_⟩
      · simp [runSync, runList_eq, List.append_assoc]
      · intro e he
        simp only [List.append_assoc, List.mem_append, List.mem_map] at he
        rcases he with ⟨a, _, rfl⟩ | ⟨a, _, rfl⟩ | ⟨a, _, rfl⟩ <;> rfl
    · simp [runSync, runList_eq, Bool.or_assoc]
  | true =>
    refine ⟨?_, ?_, ?_, ?_, ?_⟩
    · intro a ha
      exact List.mem_append_left _ (List.mem_append_left _
        (List.mem_append_left _ (List.mem_append_left _ (hm1 a ha))))
    · intro a ha
      exact List.mem_append_left _ (List.mem_append_left _
        (List.mem_append_left _ (List.mem_append_right _ (hm2 _ a ha))))
    · intro h
      cases h
    · refine ⟨(mkdirs.map fun a => RunEvent.mkdirAttempt a.1 a.2)
        ++ (puts.map fun a => RunEvent.putAttempt a.1 a.2), ?_, ?_⟩
      · simp [runSync, runList_eq, List.append_assoc]
      · intro e he
        simp only [List.append_assoc, List.mem_append, List.mem_map] at he
        rcases he with ⟨a, _, rfl⟩ | ⟨a, _, rfl⟩ <;> rfl
    · simp [runSync, runList_eq, Bool.or_assoc]

/-- Witness for C9: with a failing put among succeeding mkdir/remove actions,
the remove action is still attempted and the run reports failure. -/
theorem run_no_abort_witness :
    RunEvent.removeAttempt ["g.txt"] true
      ∈ (runSync [(["d"], true)] [(["d", "f.txt"], false)] [(["g.txt"], true)] false).1
    ∧ (runSync [(["d"], true)] [(["d", "f.txt"], false)] [(["g.txt"], true)] false).2
      = true := by
  have h := run_no_abort [(["d"], true)] [(["d", "f.txt"], false)] [(["g.txt"], true)] false
  exact ⟨h.2.2.1 rfl (["g.txt"], true) (List.mem_singleton.mpr rfl), by
    rw [h.2.2.2.2]
    decide⟩

theorem alGet_of_mem_nodup {α : Type} {l : List (String × α)} {k : String} {v : α}
    (hnd : (l.map Prod.fst).Nodup) (hm : (k, v) ∈ l) : alGet l k = some v := by
  induction l with
  | nil => cases hm
  | cons hd tl ih =>
    obtain ⟨k0, w⟩ := hd
    simp only [List.map_cons, List.nodup_cons] at hnd
    rcases List.mem_cons.mp hm with h | h
    · obtain ⟨h1, h2⟩ := Prod.mk.injEq .. ▸ h
      simp [alGet, h1.symm, h2]
    · have hk : k0 ≠ k := by
        intro he
        exact hnd.1 (he ▸ List.mem_map_of_mem Prod.fst h)
      simp [alGet, hk, ih hnd.2 h]

theorem WF_elemLookup :
    ∀ (q : List String) (e e' : ChecksumElement),
      WFElem e → elemLookup e q = some e' → WFElem e'
  | [], e, e', hwf, h => by
    simp only [elemLookup, Option.some.injEq] at h
    exact h ▸ hwf
  | k :: ks, e, e', hwf, h => by
    cases e with
    | File c => simp [elemLookup] at h
    | Directory d =>
      simp only [elemLookup] at h
      cases hg : alGet d k with
      | none => rw [hg] at h; cases h
      | some e0 =>
        rw [hg] at h
        exact WF_elemLookup ks e0 e' (WF_alGet hwf hg) h

/-- A tree element containing no file leaves at all. -/
inductive NoFiles : ChecksumElement → Prop where
  | dir (d : List (String × ChecksumElement))
      (h : ∀ p ∈ d, NoFiles p.2) : NoFiles (.Directory d)

theorem NoFiles_of_lookup :
    ∀ (e : ChecksumElement), WFElem e →
      (∀ q c, elemLookup e q ≠ some (.File c)) → NoFiles e
  | .File c, _, hl => absurd rfl (hl [] c)
  | .Directory d, hwf, hl => by
    refine NoFiles.dir d (fun p hp => ?_)
    refine NoFiles_of_lookup p.2 ?_ ?_
    · cases hwf with
      | dir _ _ hmem => exact hmem p hp
    · intro q c hq
      have hg : alGet d p.1 = some p.2 :=
        alGet_of_mem_nodup (WF_nodup hwf) (by simpa using hp)
      exact hl (p.1 :: q) c (by simp [elemLookup, hg, hq])
termination_by e => e.esize
decreasing_by exact esize_lt_of_mem hp

theorem removeLoop_noFiles :
    ∀ (stack : List (List String × ChecksumElement)) (acc : List SyncAction),
      (∀ pe ∈ stack, NoFiles pe.2) → removeLoop stack acc = acc
  | [], acc, _ => by simp [removeLoop]
  | (path, .Directory dir) :: rest, acc, h => by
    rw [removeLoop]
    refine removeLoop_noFiles _ acc ?_
    intro pe hpe
    rcases List.mem_append.mp hpe with hm | hm
    · rw [List.mem_reverse] at hm
      obtain ⟨kv, hkv, rfl⟩ := List.mem_map.mp hm
      have := h (path, .Directory dir) (List.mem_cons_self _ _)
      cases this with
      | dir _ hd => exact hd kv hkv
    · exact h pe (List.mem_cons_of_mem _ hm)
  | (path, .File c) :: rest, acc, h => by
    have := h (path, .File c) (List.mem_cons_self _ _)
    cases this
termination_by stack _ => qsize stack
decreasing_by
  rw [qsize_append, qsize_reverse, qsize_children, qsize_cons]
  simp [ChecksumElement.esize]

theorem prefix_snoc_cases {α : Type} (y l : List α) (a : α)
    (h : y <+: l ++ [a]) : y = l ++ [a] ∨ y <+: l := by
  rcases Nat.lt_or_ge y.length (l ++ [a]).length with hlen | hlen
  · right
    have hle : y.length ≤ l.length := by
      simp only [List.length_append, List.length_singleton] at hlen
      omega
    have h2 : y = List.take y.length (l ++ [a]) := List.prefix_iff_eq_take.mp h
    rw [List.take_append_of_le_length hle] at h2
    rw [h2]
    exact List.take_prefix _ _
  · left
    exact h.eq_of_length (Nat.le_antisymm h.length_le hlen)

theorem processFile_match :
    ∀ (ks : List String) (cur : ChecksumElement) (ps : List String)
      (fn c : String) (fd : List String),
      WFElem cur →
      elemLookup cur (ks ++ [fn]) = some (.File c) →
      ∃ cur', processFile cur ks ps fn c fd = some ([], cur')
        ∧ WFElem cur'
        ∧ (∀ q, ¬ (ks ++ [fn]) <+: q → ¬ q <+: (ks ++ [fn]) →
            elemLookup cur' q = elemLookup cur q)
        ∧ (∀ q, (ks ++ [fn]) <+: q → elemLookup cur' q = none)
        ∧ (∀ q, q <+: (ks ++ [fn]) → q ≠ (ks ++ [fn]) →
            ∃ s, elemLookup cur' q = some (.Directory s))
  | [], cur, ps, fn, c, fd, hwf, hlook => by
    cases cur with
    | File c0 => simp [elemLookup] at hlook
    | Directory d =>
      simp only [List.nil_append, elemLookup] at hlook
      cases hg : alGet d fn with
      | none => rw [hg] at hlook; cases hlook
      | some e0 =>
        rw [hg] at hlook
        simp only [elemLookup, Option.some.injEq] at hlook
        subst hlook
        refine ⟨.Directory (alRemove d fn).2, ?_, WF_alRemove fn hwf, ?_, ?_, ?_⟩
        · simp [processFile, alRemove_fst, hg]
        · intro q hq1 hq2
          cases q with
          | nil => exact absurd List.nil_prefix hq2
          | cons k qs =>
            have hk : k ≠ fn := by
              intro he
              subst he
              exact hq1 (by simp [List.cons_prefix_cons, List.nil_prefix])
            simp only [elemLookup, alGet_remove_ne d fn k hk]
        · intro q hq
          obtain ⟨r, hr⟩ := hq
          rw [← hr]
          simp only [List.nil_append, List.singleton_append, elemLookup,
            alGet_remove_self d fn (WF_nodup hwf)]
        · intro q hq hne
          have hq0 : q = [] := by
            rcases prefix_snoc_cases q [] fn (by simpa using hq) with h | h
            · exact absurd (by simpa using h) (by simpa using hne)
            · simpa using List.prefix_nil.mp h
          subst hq0
          exact ⟨_, rfl⟩
  | k0 :: ks', cur, ps, fn, c, fd, hwf, hlook => by
    cases cur with
    | File c0 => simp [elemLookup] at hlook
    | Directory d =>
      simp only [List.cons_append, elemLookup] at hlook
      cases hg : alGet d k0 with
      | none => rw [hg] at hlook; cases hlook
      | some child =>
        rw [hg] at hlook
        have hwfc : WFElem child := WF_alGet hwf hg
        obtain ⟨child', hpf, hwf', hframe, hrem, hanc⟩ :=
          processFile_match ks' child (ps ++ [k0]) fn c fd hwfc hlook
        refine ⟨.Directory (alInsert (alRemove d k0).2 k0 child'), ?_,
          WF_alInsert k0 (WF_alRemove k0 hwf) hwf', ?_, ?_, ?_⟩
        · simp [processFile, alRemove_fst, hg, hpf]
        · intro q hq1 hq2
          cases q with
          | nil => exact absurd List.nil_prefix hq2
          | cons k qs =>
            by_cases hk : k = k0
            · subst hk
              have h1 : ¬ (ks' ++ [fn]) <+: qs := by
                intro h
                exact hq1 (by
                  simp only [List.cons_append]
                  exact List.cons_prefix_cons.mpr ⟨rfl, h⟩)
              have h2 : ¬ qs <+: (ks' ++ [fn]) := by
                intro h
                exact hq2 (by
                  simp only [List.cons_append]
                  exact List.cons_prefix_cons.mpr ⟨rfl, h⟩)
              simp only [elemLookup, alGet_insert_self, hg]
              exact hframe qs h1 h2
            · simp only [elemLookup, alGet_insert_ne _ k0 k _ hk,
                alGet_remove_ne d k0 k hk]
        · intro q hq
          simp only [List.cons_append] at hq
          cases q with
          | nil =>
            obtain ⟨r, hr⟩ := hq
            cases hr
          | cons k qs =>
            obtain ⟨he, hqs⟩ := List.cons_prefix_cons.mp hq
            subst he
            simp only [elemLookup, alGet_insert_self]
            exact hrem qs hqs
        · intro q hq hne
          simp only [List.cons_append] at hq
          cases q with
          | nil => exact ⟨_, rfl⟩
          | cons k qs =>
            obtain ⟨he, hqs⟩ := List.cons_prefix_cons.mp hq
            subst he
            have hne' : qs ≠ ks' ++ [fn] := by
              intro h
              exact hne (by simp [h])
            obtain ⟨s, hs⟩ := hanc qs hqs hne'
            refine ⟨s, ?_⟩
            simp only [elemLookup, alGet_insert_self]
            exact hs

/-- Invariant of the identical-trees run of the reconciliation worklist: the
leftover previous tree holds exactly the queued subtrees (at their queue
paths), queue paths are mutually non-nested, and every file of the previous
tree still lies under some queued path. -/
def IdentityInv (Q : List (List String × ChecksumElement))
    (P : ChecksumElement) : Prop :=
  WFElem P
  ∧ (∀ pe ∈ Q, pe.1 ≠ [] ∧ elemLookup P pe.1 = some pe.2)
  ∧ Q.Pairwise (fun x y => ¬ x.1 <+: y.1 ∧ ¬ y.1 <+: x.1)
  ∧ (∀ q c, elemLookup P q = some (.File c) → ∃ pe ∈ Q, pe.1 <+: q)

theorem children_pairwise (dir : List (String × ChecksumElement))
    (depth : List String) (hnd : (dir.map Prod.fst).Nodup) :
    (dir.map fun kv => (depth ++ [kv.1], kv.2)).Pairwise
      (fun x y => ¬ x.1 <+: y.1 ∧ ¬ y.1 <+: x.1) := by
  rw [List.pairwise_map]
  have h2 : dir.Pairwise (fun a b => a.1 ≠ b.1) := List.pairwise_map.mp hnd
  refine h2.imp ?_
  intro a b hab
  constructor
  · intro h
    exact hab (List.append_cancel_left
      ((h.eq_of_length (by simp)) : depth ++ [a.1] = depth ++ [b.1])
      |> List.singleton_injective.eq_iff.mp |> fun x => x)
  · intro h
    exact hab (List.append_cancel_left
      ((h.eq_of_length (by simp)) : depth ++ [b.1] = depth ++ [a.1])
      |> List.singleton_injective.eq_iff.mp |> fun x => x).symm

theorem cov_step {P : ChecksumElement} {depth : List String}
    {dir : List (String × ChecksumElement)}
    (hdeplook : elemLookup P depth = some (.Directory dir))
    {q : List String} {c : String}
    (hq : elemLookup P q = some (.File c)) (hdq : depth <+: q) :
    ∃ kv ∈ dir, (depth ++ [kv.1]) <+: q := by
  have hne : q ≠ depth := by
    intro h
    rw [h, hdeplook] at hq
    simp at hq
  obtain ⟨r, hr⟩ := hdq
  have hrne : r ≠ [] := by
    intro h
    exact hne (by rw [← hr, h, List.append_nil])
  obtain ⟨k₁, r', rfl⟩ := List.exists_cons_of_ne_nil hrne
  subst hr
  rw [elemLookup_append, hdeplook] at hq
  simp only [elemLookup] at hq
  cases hg : alGet dir k₁ with
  | none => rw [hg] at hq; cases hq
  | some e₁ =>
    exact ⟨(k₁, e₁), alGet_mem _ _ _ hg, ⟨r', by simp⟩⟩

theorem bfsLoop_identity :
    ∀ (Q : List (List String × ChecksumElement)) (P : ChecksumElement)
      (A : List SyncAction), IdentityInv Q P → bfsLoop Q P A = .ok A
  | [], P, A, ⟨hwf, _, _, hcov⟩ => by
    rw [bfsLoop]
    have hnf : NoFiles P := by
      refine NoFiles_of_lookup P hwf (fun q c hq => ?_)
      obtain ⟨pe, hpe, _⟩ := hcov q c hq
      cases hpe
    rw [removeLoop_noFiles [([], P)] A ?_]
    intro pe hpe
    rw [List.mem_singleton] at hpe
    subst hpe
    exact hnf
  | (depth, .Directory dir) :: rest, P, A, ⟨hwf, hent, hpw, hcov⟩ => by
    obtain ⟨hdne, hdlook⟩ := hent (depth, .Directory dir) (List.mem_cons_self _ _)
    have hwfdir : WFElem (.Directory dir) := WF_elemLookup depth P _ hwf hdlook
    have hnd := WF_nodup hwfdir
    obtain ⟨hhead, htail⟩ := List.pairwise_cons.mp hpw
    rw [bfsLoop]
    refine bfsLoop_identity _ P A ⟨hwf, ?_, ?_, ?_⟩
    · intro pe hpe
      rcases List.mem_append.mp hpe with hm | hm
      · exact hent pe (List.mem_cons_of_mem _ hm)
      · obtain ⟨kv, hkv, rfl⟩ := List.mem_map.mp hm
        refine ⟨by simp, ?_⟩
        rw [elemLookup_append, hdlook]
        have hg : alGet dir kv.1 = some kv.2 :=
          alGet_of_mem_nodup hnd (by simpa using hkv)
        simp [elemLookup, hg]
    · rw [List.pairwise_append]
      refine ⟨htail, children_pairwise dir depth hnd, ?_⟩
      intro x hx y hy
      obtain ⟨kv, hkv, rfl⟩ := List.mem_map.mp hy
      have hxd := hhead x hx
      constructor
      · intro h
        rcases prefix_snoc_cases x.1 depth kv.1 h with he | he
        · exact hxd.1 (he ▸ List.prefix_append depth [kv.1])
        · exact hxd.2 he
      · intro h
        exact hxd.1 ((List.prefix_append depth [kv.1]).trans h)
    · intro q c hq
      obtain ⟨pe, hpe, hpre⟩ := hcov q c hq
      rcases List.mem_cons.mp hpe with h | h
      · subst h
        obtain ⟨kv, hkv, hkpre⟩ := cov_step hdlook hq hpre
        exact ⟨(depth ++ [kv.1], kv.2),
          List.mem_append_right _ (List.mem_map.mpr ⟨kv, hkv, rfl⟩), hkpre⟩
      · exact ⟨pe, List.mem_append_left _ h, hpre⟩
  | (depth, .File c) :: rest, P, A, ⟨hwf, hent, hpw, hcov⟩ => by
    obtain ⟨hdne, hdlook⟩ := hent (depth, .File c) (List.mem_cons_self _ _)
    obtain ⟨hhead, htail⟩ := List.pairwise_cons.mp hpw
    cases depth with
    | nil => exact absurd rfl hdne
    | cons k ks =>
      have hsplit : (k :: ks).dropLast ++ [(k :: ks).getLast (List.cons_ne_nil k ks)]
          = k :: ks := List.dropLast_append_getLast (List.cons_ne_nil k ks)
      have hlook' : elemLookup P ((k :: ks).dropLast
          ++ [(k :: ks).getLast (List.cons_ne_nil k ks)]) = some (.File c) := by
        rw [hsplit]
        exact hdlook
      obtain ⟨P', hpf, hwf', hframe, hrem, hanc⟩ :=
        processFile_match ((k :: ks).dropLast) P []
          ((k :: ks).getLast (List.cons_ne_nil k ks)) c (k :: ks) hwf hlook'
      rw [bfsLoop, hpf]
      show bfsLoop rest P' (A ++ []) = Except.ok A
      rw [List.append_nil]
      refine bfsLoop_identity rest P' A ⟨hwf', ?_, htail, ?_⟩
      · intro pe hpe
        obtain ⟨hne, hlk⟩ := hent pe (List.mem_cons_of_mem _ hpe)
        have hx := hhead pe hpe
        refine ⟨hne, ?_⟩
        rw [hframe pe.1 (by rw [hsplit]; exact hx.1) (by rw [hsplit]; exact hx.2)]
        exact hlk
      · intro q c' hq'
        by_cases hpq : (k :: ks) <+: q
        · rw [hrem q (by rw [hsplit]; exact hpq)] at hq'
          cases hq'
        · by_cases hqp : q <+: (k :: ks)
          · have hqne : q ≠ k :: ks := by
              intro h
              exact hpq (h ▸ List.prefix_refl _)
            obtain ⟨s, hs⟩ := hanc q (by rw [hsplit]; exact hqp)
              (by rw [hsplit]; exact hqne)
            rw [hs] at hq'
            cases hq'
          · rw [hframe q (by rw [hsplit]; exact hpq) (by rw [hsplit]; exact hqp)] at hq'
            obtain ⟨pe, hpe, hpre⟩ := hcov q c' hq'
            rcases List.mem_cons.mp hpe with h | h
            · rw [h] at hpre
              exact absurd hpre hpq
            · exact ⟨pe, h, hpre⟩
termination_by Q _ _ _ => qsize Q
decreasing_by
  · rw [qsize_append, qsize_children, qsize_cons]
    simp only [ChecksumElement.esize]
    omega
  · rw [qsize_cons]
    simp only [ChecksumElement.esize]
    omega

/-- C4: diffing any well-formed tree against an identical copy of itself
yields an empty action list (the empty tree included).  Well-formedness is
the `HashMap` invariant (unique entry names) plus the data-model invariant
that the root is a directory. -/
theorem reconcile_self (T : ChecksumTree) (hwf : WFTree T)
    (hroot : ∃ d, T.root = some (.Directory d)) :
    reconcile T T = .ok [] := by
  obtain ⟨d, hd⟩ := hroot
  have hwfd : WFElem (.Directory d) := hwf _ hd
  have hnd := WF_nodup hwfd
  have hver : check_version T.version T.version = .ok () := by
    simp [check_version]
  simp only [reconcile, hver, hd, Option.getD_some]
  rw [bfsLoop]
  simp only [List.nil_append]
  refine bfsLoop_identity _ _ _ ⟨hwfd, ?_, ?_, ?_⟩
  · intro pe hpe
    obtain ⟨kv, hkv, rfl⟩ := List.mem_map.mp hpe
    refine ⟨by simp, ?_⟩
    have hg : alGet d kv.1 = some kv.2 := alGet_of_mem_nodup hnd (by simpa using hkv)
    simp [elemLookup, hg]
  · have hcp := children_pairwise d [] hnd
    simpa using hcp
  · intro q c hq
    obtain ⟨kv, hkv, hpre⟩ :=
      cov_step (rfl : elemLookup (.Directory d) [] = some (.Directory d)) hq
        List.nil_prefix
    exact ⟨([kv.1], kv.2), List.mem_map.mpr ⟨kv, hkv, by simp⟩, by simpa using hpre⟩

/-- Witness for C4 at a concrete non-empty tree. -/
theorem reconcile_self_witness :
    reconcile
      { version := "0.3.0",
        root := some (.Directory [(".", .Directory [("f.txt", .File "h1")])]) }
      { version := "0.3.0",
        root := some (.Directory [(".", .Directory [("f.txt", .File "h1")])]) }
      = .ok [] :=
  reconcile_self _ (WFTree_mk_of_wfb _ _ (by decide)) ⟨_, rfl⟩

theorem getq_append_lt {α : Type} (l1 l2 : List α) (n : Nat) (h : n < l1.length) :
    (l1 ++ l2)[n]? = l1[n]? := by
  rw [List.getElem?_append]
  simp [h]

theorem getq_append_ge {α : Type} (l1 l2 : List α) (n : Nat) (h : l1.length ≤ n) :
    (l1 ++ l2)[n]? = l2[n - l1.length]? := by
  rw [List.getElem?_append]
  simp [Nat.not_lt.mpr h]

/-- C2's ordering property over an action list: every `Mkdir` of a directory
sits strictly before every `Put` nested properly under that directory. -/
def MkdirBeforeNestedPut (acts : List SyncAction) : Prop :=
  ∀ (i j : Nat) (dd pp : List String), acts[j]? = some (SyncAction.Mkdir dd) →
    acts[i]? = some (SyncAction.Put pp) → dd <+: pp → dd ≠ pp → j < i

theorem MB_parts (mks pp : List SyncAction)
    (hm : ∀ a ∈ mks, ∃ dd, a = SyncAction.Mkdir dd)
    (hp : ∀ a ∈ pp, ∃ q, a = SyncAction.Put q) :
    MkdirBeforeNestedPut (mks ++ pp) := by
  intro i j dd p hj hi _ _
  have hjm : j < mks.length := by
    by_contra hge
    push_neg at hge
    rw [getq_append_ge _ _ _ hge] at hj
    obtain ⟨q, hq⟩ := hp _ (List.getElem?_mem hj)
    cases hq
  have him : ¬ i < mks.length := by
    intro hlt
    rw [getq_append_lt _ _ _ hlt] at hi
    obtain ⟨dd', h'⟩ := hm _ (List.getElem?_mem hi)
    cases h'
  omega

theorem MB_append (A B : List SyncAction)
    (hA : MkdirBeforeNestedPut A) (hB : MkdirBeforeNestedPut B)
    (hcross : ∀ dd pp, SyncAction.Mkdir dd ∈ B → SyncAction.Put pp ∈ A →
      dd <+: pp → dd ≠ pp → False) :
    MkdirBeforeNestedPut (A ++ B) := by
  intro i j dd pp hj hi hpre hne
  by_cases hjA : j < A.length
  · by_cases hiA : i < A.length
    · rw [getq_append_lt _ _ _ hjA] at hj
      rw [getq_append_lt _ _ _ hiA] at hi
      exact hA i j dd pp hj hi hpre hne
    · omega
  · push_neg at hjA
    rw [getq_append_ge _ _ _ hjA] at hj
    by_cases hiA : i < A.length
    · rw [getq_append_lt _ _ _ hiA] at hi
      exact ((hcross dd pp (List.getElem?_mem hj)
        (List.getElem?_mem hi) hpre hne)).elim
    · push_neg at hiA
      rw [getq_append_ge _ _ _ hiA] at hi
      have := hB (i - A.length) (j - A.length) dd pp hj hi hpre hne
      omega

theorem processFile_shape :
    ∀ (ks : List String) (cur : ChecksumElement) (ps : List String)
      (fn c : String) (fd : List String) (acts : List SyncAction)
      (cur' : ChecksumElement),
      processFile cur ks ps fn c fd = some (acts, cur') →
      (∃ mks pp, acts = mks ++ pp
        ∧ (∀ a ∈ mks, ∃ dd, a = SyncAction.Mkdir dd)
        ∧ (pp = [] ∨ pp = [SyncAction.Put fd]))
      ∧ (∀ dd, SyncAction.Mkdir dd ∈ acts →
          ∃ pre, pre ≠ [] ∧ pre <+: ks ∧ dd = ps ++ pre ∧ elemLookup cur pre = none)
      ∧ (∀ q s, elemLookup cur q = some (.Directory s) →
          ∃ s', elemLookup cur' q = some (.Directory s'))
      ∧ (∀ pre, pre ≠ [] → pre <+: ks →
          ∃ s, elemLookup cur' pre = some (.Directory s))
      ∧ (∃ dd', cur' = .Directory dd')
  | [], cur, ps, fn, c, fd, acts, cur', hpf => by
    cases cur with
    | File c0 => simp [processFile] at hpf
    | Directory d =>
      simp only [processFile] at hpf
      rw [alRemove_fst] at hpf
      cases hg : alGet d fn with
      | none =>
        rw [hg] at hpf
        simp only [Option.some.injEq, Prod.mk.injEq] at hpf
        obtain ⟨hacts, hcur'⟩ := hpf
        subst hacts
        subst hcur'
        refine ⟨⟨[], [SyncAction.Put fd], by simp, by simp, Or.inr rfl⟩,
          ?_, ?_, ?_, ⟨_, rfl⟩⟩
        · intro dd hdd
          simp at hdd
        · intro q s hq
          cases q with
          | nil => exact ⟨_, rfl⟩
          | cons k qs =>
            simp only [elemLookup] at hq ⊢
            cases hgk : alGet d k with
            | none => rw [hgk] at hq; cases hq
            | some e₀ =>
              rw [hgk] at hq
              have hk : k ≠ fn := by
                intro he
                rw [he, hg] at hgk
                cases hgk
              rw [alGet_remove_ne d fn k hk, hgk]
              exact ⟨s, hq⟩
        · intro pre hpre h
          exact absurd (List.prefix_nil.mp h) hpre
      | some e0 =>
        rw [hg] at hpf
        cases e0 with
        | Directory d0 => simp at hpf
        | File pc =>
          simp only [Option.some.injEq, Prod.mk.injEq] at hpf
          obtain ⟨hacts, hcur'⟩ := hpf
          subst hacts
          subst hcur'
          have hcq : ∀ q s, elemLookup (ChecksumElement.Directory d) q
              = some (.Directory s) →
              ∃ s', elemLookup (ChecksumElement.Directory (alRemove d fn).2) q
                = some (.Directory s') := by
            intro q s hq
            cases q with
            | nil => exact ⟨_, rfl⟩
            | cons k qs =>
              simp only [elemLookup] at hq ⊢
              cases hgk : alGet d k with
              | none => rw [hgk] at hq; cases hq
              | some e₀ =>
                rw [hgk] at hq
                have hk : k ≠ fn := by
                  intro he
                  rw [he, hg] at hgk
                  injection hgk with hgk
                  subst hgk
                  cases qs with
                  | nil => simp [elemLookup] at hq
                  | cons a b => simp [elemLookup] at hq
                rw [alGet_remove_ne d fn k hk, hgk]
                exact ⟨s, hq⟩
          by_cases hpc : pc = c
          · refine ⟨⟨[], [], by simp [hpc], by simp, Or.inl rfl⟩, ?_, hcq, ?_, ⟨_, rfl⟩⟩
            · intro dd hdd
              simp [hpc] at hdd
            · intro pre hpre h
              exact absurd (List.prefix_nil.mp h) hpre
          · refine ⟨⟨[], [SyncAction.Put fd], by simp [hpc], by simp, Or.inr rfl⟩,
              ?_, hcq, ?_, ⟨_, rfl⟩⟩
            · intro dd hdd
              simp [hpc] at hdd
            · intro pre hpre h
              exact absurd (List.prefix_nil.mp h) hpre
  | k0 :: ks', cur, ps, fn, c, fd, acts, cur', hpf => by
    cases cur with
    | File c0 => simp [processFile] at hpf
    | Directory d =>
      simp only [processFile] at hpf
      rw [alRemove_fst] at hpf
      cases hg : alGet d k0 with
      | none =>
        rw [hg] at hpf
        simp only [Option.getD_none] at hpf
        cases hrec : processFile ChecksumElement.defaultElem ks' (ps ++ [k0]) fn c fd with
        | none => rw [hrec] at hpf; simp at hpf
        | some res =>
          obtain ⟨acts₀, child'⟩ := res
          rw [hrec] at hpf
          simp only [Option.some.injEq, Prod.mk.injEq] at hpf
          obtain ⟨hacts, hcur'⟩ := hpf
          subst hcur'
          obtain ⟨⟨mks₀, pp₀, hsplit₀, hmks₀, hpp₀⟩, hb₀, hc₀, hd₀, hchild'⟩ :=
            processFile_shape ks' ChecksumElement.defaultElem
              (ps ++ [k0]) fn c fd acts₀ child' hrec
          refine ⟨?_, ?_, ?_, ?_, ⟨_, rfl⟩⟩
          · refine ⟨(if (ps ++ [k0]).length > 1
              then [SyncAction.Mkdir (ps ++ [k0])] else []) ++ mks₀, pp₀, ?_, ?_, hpp₀⟩
            · rw [← hacts, hsplit₀, List.append_assoc]
            · intro a ha
              rcases List.mem_append.mp ha with h | h
              · by_cases hl : (ps ++ [k0]).length > 1
                · rw [if_pos hl] at h
                  rw [List.mem_singleton] at h
                  exact ⟨_, h⟩
                · rw [if_neg hl] at h
                  cases h
              · exact hmks₀ a h
          · intro dd hdd
            rw [← hacts] at hdd
            rcases List.mem_append.mp hdd with h | h
            · by_cases hl : (ps ++ [k0]).length > 1
              · rw [if_pos hl] at h
                rw [List.mem_singleton] at h
                injection h with h
                refine ⟨[k0], by simp, by simp, by rw [h], ?_⟩
                simp [elemLookup, hg]
              · rw [if_neg hl] at h
                cases h
            · obtain ⟨pre₀, hpre₀ne, hpre₀pre, hdd₀, _⟩ := hb₀ dd h
              refine ⟨k0 :: pre₀, by simp, List.cons_prefix_cons.mpr ⟨rfl, hpre₀pre⟩,
                by rw [hdd₀, List.append_assoc]; rfl, ?_⟩
              simp [elemLookup, hg]
          · intro q s hq
            cases q with
            | nil => exact ⟨_, rfl⟩
            | cons k qs =>
              simp only [elemLookup] at hq ⊢
              cases hgk : alGet d k with
              | none => rw [hgk] at hq; cases hq
              | some e₀ =>
                rw [hgk] at hq
                have hk : k ≠ k0 := by
                  intro he
                  rw [he, hg] at hgk
                  cases hgk
                rw [alGet_insert_ne _ k0 k _ hk, alGet_remove_ne d k0 k hk, hgk]
                exact ⟨s, hq⟩
          · intro pre hpre hprefix
            cases pre with
            | nil => exact absurd rfl hpre
            | cons k1 pre' =>
              obtain ⟨he, hpr⟩ := List.cons_prefix_cons.mp hprefix
              subst he
              cases pre' with
              | nil =>
                obtain ⟨dd', hdd'⟩ := hchild'
                refine ⟨dd', ?_⟩
                simp [elemLookup, alGet_insert_self, hdd']
              | cons a b =>
                obtain ⟨s, hs⟩ := hd₀ (a :: b) (by simp) hpr
                refine ⟨s, ?_⟩
                simp only [elemLookup, alGet_insert_self]
                exact hs
      | some child =>
        rw [hg] at hpf
        simp only [Option.getD_some] at hpf
        cases hrec : processFile child ks' (ps ++ [k0]) fn c fd with
        | none => rw [hrec] at hpf; simp at hpf
        | some res =>
          obtain ⟨acts₀, child'⟩ := res
          rw [hrec] at hpf
          simp only [Option.some.injEq, Prod.mk.injEq] at hpf
          obtain ⟨hacts, hcur'⟩ := hpf
          subst hcur'
          obtain ⟨⟨mks₀, pp₀, hsplit₀, hmks₀, hpp₀⟩, hb₀, hc₀, hd₀, hchild'⟩ :=
            processFile_shape ks' child (ps ++ [k0]) fn c fd acts₀ child' hrec
          have hacts' : acts = acts₀ := by rw [← hacts]; simp
          subst hacts'
          refine ⟨⟨mks₀, pp₀, hsplit₀, hmks₀, hpp₀⟩, ?_, ?_, ?_, ⟨_, rfl⟩⟩
          · intro dd hdd
            obtain ⟨pre₀, hpre₀ne, hpre₀pre, hdd₀, hlook₀⟩ := hb₀ dd hdd
            refine ⟨k0 :: pre₀, by simp, List.cons_prefix_cons.mpr ⟨rfl, hpre₀pre⟩,
              by rw [hdd₀, List.append_assoc]; rfl, ?_⟩
            simp only [elemLookup, hg]
            exact hlook₀
          · intro q s hq
            cases q with
            | nil => exact ⟨_, rfl⟩
            | cons k qs =>
              simp only [elemLookup] at hq ⊢
              cases hgk : alGet d k with
              | none => rw [hgk] at hq; cases hq
              | some e₀ =>
                rw [hgk] at hq
                by_cases hk : k = k0
                · subst hk
                  rw [hg] at hgk
                  injection hgk with hgk
                  subst hgk
                  obtain ⟨s', hs'⟩ := hc₀ qs s hq
                  rw [alGet_insert_self]
                  exact ⟨s', hs'⟩
                · rw [alGet_insert_ne _ k0 k _ hk, alGet_remove_ne d k0 k hk, hgk]
                  exact ⟨s, hq⟩
          · intro pre hpre hprefix
            cases pre with
            | nil => exact absurd rfl hpre
            | cons k1 pre' =>
              obtain ⟨he, hpr⟩ := List.cons_prefix_cons.mp hprefix
              subst he
              cases pre' with
              | nil =>
                obtain ⟨dd', hdd'⟩ := hchild'
                refine ⟨dd', ?_⟩
                simp [elemLookup, alGet_insert_self, hdd']
              | cons a b =>
                obtain ⟨s, hs⟩ := hd₀ (a :: b) (by simp) hpr
                refine ⟨s, ?_⟩
                simp only [elemLookup, alGet_insert_self]
                exact hs

theorem removeLoop_shape :
    ∀ (stack : List (List String × ChecksumElement)) (acc : List SyncAction),
      ∃ rs, removeLoop stack acc = acc ++ rs
        ∧ ∀ a ∈ rs, ∃ pp, a = SyncAction.Remove pp
  | [], acc => ⟨[], by simp [removeLoop], by simp⟩
  | (path, .Directory dir) :: rest, acc => by
    rw [removeLoop]
    exact removeLoop_shape _ acc
  | (path, .File c) :: rest, acc => by
    rw [removeLoop]
    obtain ⟨rs, hres, hall⟩ := removeLoop_shape rest (acc ++ [SyncAction.Remove path])
    refine ⟨[SyncAction.Remove path] ++ rs, ?_, ?_⟩
    · rw [hres, List.append_assoc]
    · intro a ha
      rcases List.mem_append.mp ha with h | h
      · rw [List.mem_singleton] at h
        exact ⟨path, h⟩
      · exact hall a h
termination_by stack _ => qsize stack
decreasing_by
  · rw [qsize_append, qsize_reverse, qsize_children, qsize_cons]
    simp only [ChecksumElement.esize]
    omega
  · rw [qsize_cons]
    simp only [ChecksumElement.esize]
    omega

theorem bfsLoop_MB :
    ∀ (Q : List (List String × ChecksumElement)) (P : ChecksumElement)
      (A res : List SyncAction),
      bfsLoop Q P A = .ok res →
      MkdirBeforeNestedPut A →
      (∀ pp, SyncAction.Put pp ∈ A → ∀ dd, dd ≠ [] → dd <+: pp → dd ≠ pp →
        ∃ s, elemLookup P dd = some (.Directory s)) →
      MkdirBeforeNestedPut res
  | [], P, A, res, hres, hmb, _ => by
    rw [bfsLoop] at hres
    injection hres with hres
    obtain ⟨rs, hrl, hall⟩ := removeLoop_shape [([], P)] A
    rw [hrl] at hres
    subst hres
    refine MB_append A rs hmb ?_ ?_
    · intro i j dd pp hj _ _ _
      obtain ⟨q, hq⟩ := hall _ (List.getElem?_mem hj)
      cases hq
    · intro dd pp hdd _ _ _
      obtain ⟨q, hq⟩ := hall _ hdd
      cases hq
  | (depth, .Directory dir) :: rest, P, A, res, hres, hmb, hput => by
    rw [bfsLoop] at hres
    exact bfsLoop_MB _ P A res hres hmb hput
  | (depth, .File c) :: rest, P, A, res, hres, hmb, hput => by
    cases depth with
    | nil => rw [bfsLoop] at hres; simp at hres
    | cons k ks =>
      rw [bfsLoop] at hres
      cases hpf : processFile P (k :: ks).dropLast []
          ((k :: ks).getLast (List.cons_ne_nil k ks)) c (k :: ks) with
      | none => rw [hpf] at hres; simp at hres
      | some pr =>
        obtain ⟨acts₀, P'⟩ := pr
        rw [hpf] at hres
        obtain ⟨⟨mks₀, pp₀, hsplit₀, hmks₀, hpp₀⟩, hb₀, hc₀, hd₀, _⟩ :=
          processFile_shape _ P [] _ c (k :: ks) acts₀ P' hpf
        have hsplit : (k :: ks).dropLast
            ++ [(k :: ks).getLast (List.cons_ne_nil k ks)] = k :: ks :=
          List.dropLast_append_getLast _
        have hmb' : MkdirBeforeNestedPut (A ++ acts₀) := by
          refine MB_append A acts₀ hmb ?_ ?_
          · rw [hsplit₀]
            refine MB_parts mks₀ pp₀ hmks₀ ?_
            intro a ha
            rcases hpp₀ with h | h
            · rw [h] at ha; cases ha
            · rw [h] at ha
              rw [List.mem_singleton] at ha
              exact ⟨_, ha⟩
          · intro dd pp hdd hpp hpre hne
            obtain ⟨pre, hprene, hprepre, hddeq, hlook⟩ := hb₀ dd hdd
            rw [List.nil_append] at hddeq
            subst hddeq
            obtain ⟨s, hs⟩ := hput pp hpp dd hprene hpre hne
            rw [hs] at hlook
            cases hlook
        have hput' : ∀ pp, SyncAction.Put pp ∈ A ++ acts₀ →
            ∀ dd, dd ≠ [] → dd <+: pp → dd ≠ pp →
            ∃ s, elemLookup P' dd = some (.Directory s) := by
          intro pp hpp dd hddne hpre hne
          rcases List.mem_append.mp hpp with h | h
          · obtain ⟨s, hs⟩ := hput pp h dd hddne hpre hne
            exact hc₀ dd s hs
          · have hfd : pp = k :: ks := by
              rw [hsplit₀] at h
              rcases List.mem_append.mp h with h' | h'
              · obtain ⟨dd', hd'⟩ := hmks₀ _ h'
                cases hd'
              · rcases hpp₀ with h2 | h2
                · rw [h2] at h'; cases h'
                · rw [h2] at h'
                  rw [List.mem_singleton] at h'
                  injection h' with h'
            subst hfd
            have hdl : dd <+: (k :: ks).dropLast := by
              rcases prefix_snoc_cases dd ((k :: ks).dropLast)
                  ((k :: ks).getLast (List.cons_ne_nil k ks))
                  (by rw [hsplit]; exact hpre) with h2 | h2
              · rw [hsplit] at h2
                exact absurd h2 hne
              · exact h2
            exact hd₀ dd hddne hdl
        exact bfsLoop_MB rest P' (A ++ acts₀) res hres hmb' hput'
termination_by Q _ _ _ _ _ _ => qsize Q
decreasing_by
  · rw [qsize_append, qsize_children, qsize_cons]
    simp only [ChecksumElement.esize]
    omega
  · rw [qsize_cons]
    simp only [ChecksumElement.esize]
    omega

/-- C2: in every action list `reconcile` returns, the `Mkdir` of a directory
appears at a strictly earlier index than every `Put` whose path is nested
(properly) under that directory. -/
theorem reconcile_mkdir_before_put (prev next : ChecksumTree)
    (acts : List SyncAction) (h : reconcile prev next = .ok acts) :
    MkdirBeforeNestedPut acts := by
  cases hv : check_version prev.version next.version with
  | error e =>
    simp only [reconcile, hv] at h
    exact Except.noConfusion h
  | ok u =>
    cases u
    simp only [reconcile, hv] at h
    cases hroot : next.root with
    | none => rw [hroot] at h; simp at h
    | some root =>
      rw [hroot] at h
      refine bfsLoop_MB _ _ [] acts h ?_ ?_
      · intro i j dd pp hj
        simp at hj
      · intro pp hpp
        simp at hpp

/-- Witness for C2 on the two-level scenario from the repository's tests:
both Mkdir actions precede the nested Put. -/
theorem reconcile_mkdir_before_put_witness :
    MkdirBeforeNestedPut [SyncAction.Mkdir [".", "direktory"],
      SyncAction.Mkdir [".", "direktory", "nested"],
      SyncAction.Put [".", "direktory", "nested", "file.txt"]] :=
  reconcile_mkdir_before_put ChecksumTree.new
    { version := cargoPkgVersion,
      root := some (.Directory [(".", .Directory [("direktory", .Directory
        [("nested", .Directory [("file.txt", .File "x")])])])]) } _
    (by simp [reconcile, check_version, ChecksumTree.new, cargoPkgVersion,
      ChecksumElement.defaultElem, bfsLoop, processFile, removeLoop, alRemove,
      alInsert])
